import Mathlib

/-!
Shallow embedding of the zstd seekable-format codec
(SaveTheRbtz/zstd-seekable-format-go): wire types, writer, reader and the
skippable seek-table frame, together with proofs of the specification claims.

Byte buffers are modelled as `List Nat`; every byte emitted by a serializer is
reduced modulo 256.  The external ZSTD compressor/decompressor and the XXH64
hash are opaque primitives, modelled by a `Codec` record of abstract functions;
theorems that need them take the relevant round-trip facts as hypotheses.
-/

namespace ZstdSeekable

/-- Byte buffers as lists of naturals (each serializer output is < 256). -/
abbrev Bytes := List Nat

/-- `math.MaxUint32`. -/
def maxUint32 : Nat := 4294967295

/-- `skippableFrameMagic = 0x184D2A50`. -/
def skippableFrameMagic : Nat := 0x184D2A50

/-- `seekableMagicNumber = 0x8F92EAB1`. -/
def seekableMagicNumber : Nat := 0x8F92EAB1

/-- `seekTableFooterOffset = 9`. -/
def seekTableFooterOffset : Nat := 9

/-- `seekableTag = 0xE`. -/
def seekableTag : Nat := 0xE

/-- `maxDecoderFrameSize = 128 << 20` (decoder OOM safety ceiling). -/
def maxDecoderFrameSize : Nat := 128 * 1048576

/-- `binary.LittleEndian.PutUint32`: the four little-endian bytes of a value. -/
def putUint32LE (v : Nat) : Bytes :=
  [v % 256, v / 256 % 256, v / 65536 % 256, v / 16777216 % 256]

/-- `binary.LittleEndian.Uint32`: read the first four bytes little-endian. -/
def getUint32LE (p : Bytes) : Nat :=
  p.getD 0 0 + 256 * p.getD 1 0 + 65536 * p.getD 2 0 + 16777216 * p.getD 3 0

/-- Error kinds raised by the codec (Go returns `fmt.Errorf` values; we keep
one constructor per distinct error site / kind). -/
inductive Err where
  | formatLength
  | formatReserved
  | formatMagic
  | entryLength
  | badTag
  | oversizeFrame
  | oversizeResult
  | oversizeNumFrames
  | partialWrite
  | eof
  | readerClosed
  | offsetBeforeStart
  | indexLookup
  | outOfBounds
  | compSizeTooBig
  | shortCompressed
  | decodeFailed
  | checksumMismatch
  | indexCorruption
  | negativeOffset
  | unknownWhence
  | footerTooSmall
  | skipFrameTooSmall
  | frameOffsetTooBig
  | skippableMagicMismatch
  | frameSizeMismatch
  | frameTooBig
  | seekTableNotMultiple
deriving DecidableEq, Repr

/-- `SeekTableDescriptor`: bit 7 of the descriptor byte (checksum flag). -/
structure SeekTableDescriptor where
  ChecksumFlag : Bool
deriving DecidableEq, Repr

/-- `seekTableFooter`: `Number_Of_Frames` (u32), descriptor byte, magic (u32). -/
structure SeekTableFooter where
  NumberOfFrames : Nat
  Descriptor : SeekTableDescriptor
  SeekableMagicNumber : Nat
deriving DecidableEq, Repr

/-- `seekTableFooter.marshalBinaryInline`: 4 bytes LE frame count, one
descriptor byte (bit 7 iff checksum flag), 4 bytes LE magic. -/
def SeekTableFooter.marshalBinary (f : SeekTableFooter) : Bytes :=
  putUint32LE f.NumberOfFrames ++
    [if f.Descriptor.ChecksumFlag then 128 else 0] ++
    putUint32LE seekableMagicNumber

/-- `seekTableFooter.UnmarshalBinary` (current revision): exact length check,
reserved-bits check `(p[4] << 1) >> 3 != 0` (bits 2..6 of the descriptor
byte), then field extraction and the magic check. -/
def SeekTableFooter.UnmarshalBinary (p : Bytes) : Except Err SeekTableFooter :=
  if p.length ≠ seekTableFooterOffset then .error .formatLength
  else if p.getD 4 0 % 256 * 2 % 256 / 8 ≠ 0 then .error .formatReserved
  else if getUint32LE (p.drop 5) ≠ seekableMagicNumber then .error .formatMagic
  else .ok
    { NumberOfFrames := getUint32LE p
      Descriptor := { ChecksumFlag := decide (0 < (p.getD 4 0).land 128) }
      SeekableMagicNumber := getUint32LE (p.drop 5) }

/-- `seekTableEntry`: `Compressed_Size`, `Decompressed_Size`, `Checksum`. -/
structure SeekTableEntry where
  CompressedSize : Nat
  DecompressedSize : Nat
  Checksum : Nat
deriving DecidableEq, Repr

/-- `seekTableEntry.marshalBinaryInline`: three little-endian u32 fields. -/
def SeekTableEntry.marshalBinary (e : SeekTableEntry) : Bytes :=
  putUint32LE e.CompressedSize ++ putUint32LE e.DecompressedSize ++
    putUint32LE e.Checksum

/-- `seekTableEntry.UnmarshalBinary`: needs at least 8 bytes; the checksum is
read only when at least 12 bytes are available (otherwise the reused struct
field keeps its zero value, as in the decoding loop). -/
def SeekTableEntry.UnmarshalBinary (p : Bytes) : Except Err SeekTableEntry :=
  if p.length < 8 then .error .entryLength
  else .ok
    { CompressedSize := getUint32LE p
      DecompressedSize := getUint32LE (p.drop 4)
      Checksum := if 12 ≤ p.length then getUint32LE (p.drop 8) else 0 }

/-- `createSkippableFrame`: empty payload short-circuits to an empty result;
then tag and size validation; then LE header plus payload. -/
def createSkippableFrame (tag : Nat) (payload : Bytes) : Except Err Bytes :=
  if payload.length = 0 then .ok []
  else if 0xF < tag then .error .badTag
  else if maxUint32 < payload.length then .error .oversizeFrame
  else .ok (putUint32LE (skippableFrameMagic + tag) ++
    putUint32LE payload.length ++ payload)

/-- Opaque external primitives: the ZSTD compressor/decompressor
(`EncodeAll` / `DecodeAll`) and the XXH64 hash. -/
structure Codec where
  encodeAll : Bytes → Bytes
  decodeAll : Bytes → Option Bytes
  xxh64 : Bytes → Nat

/-- State of `writerImpl`: accrued seek-table entries, the bytes emitted to
the write environment (frames and seek table go to one in-memory sink), and
the `sync.Once` flag guarding `Close`. -/
structure WriterState where
  frameEntries : List SeekTableEntry
  out : Bytes
  closedOnce : Bool
deriving DecidableEq, Repr

/-- A freshly constructed writer. -/
def WriterState.initial : WriterState := ⟨[], [], false⟩

/-- `writerImpl.Encode`: chunk-size guard, empty-input short-circuit,
compression, result-size guard, then seek-table entry accrual (sizes and the
low 32 bits of the XXH64 digest are stored as u32).  Returns the compressed
frame. -/
def writerImpl.Encode (c : Codec) (s : WriterState) (src : Bytes) :
    WriterState × Bytes × Option Err :=
  if maxUint32 < src.length then (s, [], some .oversizeFrame)
  else if src.length = 0 then (s, [], none)
  else
    let dst := c.encodeAll src
    if maxUint32 < dst.length then (s, [], some .oversizeResult)
    else
      let entry : SeekTableEntry :=
        { CompressedSize := dst.length % 4294967296
          DecompressedSize := src.length % 4294967296
          Checksum := c.xxh64 src % 4294967296 }
      ({ s with frameEntries := s.frameEntries ++ [entry] }, dst, none)

/-- `writerImpl.Write`: encode, then emit the compressed frame through the
write environment (an in-memory sink which always accepts the full buffer),
returning `len(src)`. -/
def writerImpl.Write (c : Codec) (s : WriterState) (src : Bytes) :
    WriterState × Nat × Option Err :=
  match writerImpl.Encode c s src with
  | (s1, dst, none) => ({ s1 with out := s1.out ++ dst }, src.length, none)
  | (s1, _, some e) => (s1, 0, some e)

/-- `writerImpl.EndStream`: serialize all entries back-to-back, check the
frame count, append the footer (checksum flag always set) and wrap everything
in a skippable frame tagged `0xE`. -/
def writerImpl.EndStream (s : WriterState) : Except Err Bytes :=
  if maxUint32 < s.frameEntries.length then .error .oversizeNumFrames
  else
    createSkippableFrame seekableTag
      ((s.frameEntries.map SeekTableEntry.marshalBinary).flatten ++
        SeekTableFooter.marshalBinary
          { NumberOfFrames := s.frameEntries.length % 4294967296
            Descriptor := { ChecksumFlag := true }
            SeekableMagicNumber := seekableMagicNumber })

/-- `writerImpl.Close`: `sync.Once` around `writeSeekTable` (build the seek
table via `EndStream` and emit it); later calls do nothing and return nil. -/
def writerImpl.Close (s : WriterState) : WriterState × Option Err :=
  if s.closedOnce then (s, none)
  else
    match writerImpl.EndStream s with
    | .error e => ({ s with closedOnce := true }, some e)
    | .ok tbl => ({ s with closedOnce := true, out := s.out ++ tbl }, none)

/-- `env.FrameOffsetEntry`: the post-processed view of a seek-table entry
used for indexing. -/
structure FrameOffsetEntry where
  ID : Int
  CompOffset : Nat
  DecompOffset : Nat
  CompSize : Nat
  DecompSize : Nat
  Checksum : Nat
deriving DecidableEq, Repr

/-- Google btree `ReplaceOrInsert` under the reader's ordering (`env.Less`,
strict comparison of `DecompOffset`): the tree is modelled as a list sorted
strictly by `DecompOffset`; inserting an entry whose key is already present
replaces the resident entry. -/
def btreeInsert (e : FrameOffsetEntry) :
    List FrameOffsetEntry → List FrameOffsetEntry
  | [] => [e]
  | x :: xs =>
    if e.DecompOffset < x.DecompOffset then e :: x :: xs
    else if x.DecompOffset < e.DecompOffset then x :: btreeInsert e xs
    else e :: xs

/-- btree `DescendLessOrEqual` with an iterator that stops at the first item:
the greatest entry whose `DecompOffset` is at most `off`. -/
def descendLessOrEqual (t : List FrameOffsetEntry) (off : Nat) :
    Option FrameOffsetEntry :=
  (t.filter (fun e => e.DecompOffset ≤ off)).getLast?

/-- State of `readerImpl`: the index, the footer's checksum flag, the
sequential cursor, frame count, `endOffset`, the closed flag and the
single-slot decompressed-frame cache. -/
structure ReaderState where
  index : List FrameOffsetEntry
  checksums : Bool
  offset : Int
  numFrames : Int
  endOffset : Nat
  closed : Bool
  cachedOffset : Nat
  cachedData : Option Bytes
deriving DecidableEq, Repr

/-- `readerImpl.GetIndexByDecompOffset`: nil at or past `endOffset`,
otherwise the greatest index entry at or below `off`. -/
def readerImpl.GetIndexByDecompOffset (r : ReaderState) (off : Nat) :
    Option FrameOffsetEntry :=
  if r.endOffset ≤ off then none
  else descendLessOrEqual r.index off

/-- `readSeekerEnvImpl.GetFrameByIndex` over an in-memory file: the bytes
available at `[CompOffset, CompOffset + CompSize)`. -/
def envGetFrameByIndex (file : Bytes) (e : FrameOffsetEntry) : Bytes :=
  (file.drop e.CompOffset).take e.CompSize

/-- Slow path of `readerImpl.read`: compressed-size ceiling, frame fetch,
length check, decompression, optional checksum verification. -/
def readerImpl.fetchFrame (c : Codec) (file : Bytes) (checksums : Bool)
    (index : FrameOffsetEntry) : Except Err Bytes :=
  if maxDecoderFrameSize < index.CompSize then .error .compSizeTooBig
  else if (envGetFrameByIndex file index).length ≠ index.CompSize then
    .error .shortCompressed
  else
    match c.decodeAll (envGetFrameByIndex file index) with
    | none => .error .decodeFailed
    | some decompressed =>
      if checksums then
        if index.Checksum ≠ c.xxh64 decompressed % 4294967296 then
          .error .checksumMismatch
        else .ok decompressed
      else .ok decompressed

/-- Tail of `readerImpl.read` shared by the cache fast path and the slow
path: decompressed-length check, then copy up to `min` bytes out of the
frame, returning the advanced offset, the bytes and the updated state. -/
def readerImpl.finishRead (decompressed : Bytes) (index : FrameOffsetEntry)
    (r : ReaderState) (dstLen : Nat) (off : Int) :
    Except Err (Int × Bytes × ReaderState) :=
  if decompressed.length ≠ index.DecompSize then .error .indexCorruption
  else
    .ok (off +
        min (decompressed.length - (off.toNat - index.DecompOffset)) dstLen,
      (decompressed.drop (off.toNat - index.DecompOffset)).take
        (min (decompressed.length - (off.toNat - index.DecompOffset)) dstLen),
      r)

/-- `readerImpl.read`: closed check, end-of-stream check, negative-offset
check, index resolution, bounds check, then the cached fast path or the
fetch-decompress-cache slow path, and finally the copy. -/
def readerImpl.read (c : Codec) (file : Bytes) (r : ReaderState)
    (dstLen : Nat) (off : Int) : Except Err (Int × Bytes × ReaderState) :=
  if r.closed then .error .readerClosed
  else if (r.endOffset : Int) ≤ off then .error .eof
  else if off < 0 then .error .offsetBeforeStart
  else
    match readerImpl.GetIndexByDecompOffset r off.toNat with
    | none => .error .indexLookup
    | some index =>
      if off < (index.DecompOffset : Int) ∨
          (index.DecompOffset : Int) + (index.DecompSize : Int) < off then
        .error .outOfBounds
      else
        match
          (if r.cachedOffset = index.DecompOffset then r.cachedData else none)
        with
        | some decompressed =>
          readerImpl.finishRead decompressed index r dstLen off
        | none =>
          match readerImpl.fetchFrame c file r.checksums index with
          | .error e => .error e
          | .ok decompressed =>
            readerImpl.finishRead decompressed index
              { r with cachedOffset := index.DecompOffset
                       cachedData := some decompressed } dstLen off

/-- `readerImpl.Read`: sequential read from the cursor; on EOF the cursor is
clamped to `endOffset`; on success it advances to the returned offset. -/
def readerImpl.Read (c : Codec) (file : Bytes) (r : ReaderState)
    (dstLen : Nat) : ReaderState × Bytes × Option Err :=
  match readerImpl.read c file r dstLen r.offset with
  | .error e =>
    if e = .eof then ({ r with offset := r.endOffset }, [], some .eof)
    else (r, [], some e)
  | .ok (offset, bytes, r1) => ({ r1 with offset := offset }, bytes, none)

/-- `readerImpl.ReadAt` loop body (`for m := 0; n < len(p) && err == nil;
n += m`), fuelled: `none` models a loop that never terminates. -/
def readerImpl.ReadAtAux (c : Codec) (file : Bytes) :
    Nat → ReaderState → Nat → Int → Option (ReaderState × Bytes × Option Err)
  | 0, _, _, _ => none
  | fuel + 1, r, dstLen, off =>
    if dstLen = 0 then some (r, [], none)
    else
      match readerImpl.read c file r dstLen off with
      | .error e => some (r, [], some e)
      | .ok (_, bytes, r1) =>
        if dstLen ≤ bytes.length then some (r1, bytes.take dstLen, none)
        else
          match readerImpl.ReadAtAux c file fuel r1 (dstLen - bytes.length)
              (off + bytes.length) with
          | none => none
          | some (r2, rest, err) => some (r2, bytes ++ rest, err)

/-- `readerImpl.ReadAt`: positional read that retries until the buffer is
filled or an error occurs. -/
def readerImpl.ReadAt (c : Codec) (file : Bytes) (r : ReaderState)
    (dstLen : Nat) (off : Int) : Option (ReaderState × Bytes × Option Err) :=
  readerImpl.ReadAtAux c file (dstLen + 1) r dstLen off

/-- `readerImpl.Seek`: whence dispatch (`io.SeekStart = 0`,
`io.SeekCurrent = 1`, `io.SeekEnd = 2`, otherwise an unknown-whence error),
negative-result check, then cursor update. -/
def readerImpl.Seek (r : ReaderState) (offset : Int) (whence : Int) :
    Int × ReaderState × Option Err :=
  match
    (if whence = 1 then some (r.offset + offset)
     else if whence = 0 then some offset
     else if whence = 2 then some ((r.endOffset : Int) + offset)
     else none)
  with
  | none => (0, r, some .unknownWhence)
  | some newOffset =>
    if newOffset < 0 then (0, r, some .negativeOffset)
    else (newOffset, { r with offset := newOffset }, none)

/-- The absolute position §4.4 prescribes for a seek, per whence. -/
def seekTarget (r : ReaderState) (offset : Int) (whence : Int) : Int :=
  if whence = 0 then offset
  else if whence = 1 then r.offset + offset
  else (r.endOffset : Int) + offset

/-- Loop body of `readerImpl.indexSeekTableEntries`: each iteration decodes
one `entrySize`-byte record, builds the `FrameOffsetEntry` with the running
id and cumulative offsets, inserts it into the tree and remembers it as the
last entry seen. -/
def indexEntriesGo (entrySize : Nat) :
    Nat → Bytes → Int → Nat → Nat → List FrameOffsetEntry →
    Option FrameOffsetEntry →
    Except Err (List FrameOffsetEntry × Option FrameOffsetEntry)
  | 0, _, _, _, _, t, last => .ok (t, last)
  | n + 1, p, i, compOffset, decompOffset, t, _ =>
    match SeekTableEntry.UnmarshalBinary (p.take entrySize) with
    | .error e => .error e
    | .ok entry =>
      let fo : FrameOffsetEntry :=
        { ID := i
          CompOffset := compOffset
          DecompOffset := decompOffset
          CompSize := entry.CompressedSize
          DecompSize := entry.DecompressedSize
          Checksum := entry.Checksum }
      indexEntriesGo entrySize n (p.drop entrySize) (i + 1)
        (compOffset + entry.CompressedSize)
        (decompOffset + entry.DecompressedSize)
        (btreeInsert fo t) (some fo)

/-- `readerImpl.indexSeekTableEntries`: reject a table that is not a multiple
of the entry stride, then run the decoding loop from id 0 and offsets 0. -/
def readerImpl.indexSeekTableEntries (p : Bytes) (entrySize : Nat) :
    Except Err (List FrameOffsetEntry × Option FrameOffsetEntry) :=
  if p.length % entrySize ≠ 0 then .error .seekTableNotMultiple
  else indexEntriesGo entrySize (p.length / entrySize) p 0 0 0 [] none

/-- The index entry the decoding loop constructs for one record at a given
id and pair of cumulative offsets. -/
def cumHead (e : SeekTableEntry) (i : Int) (co dOff : Nat) :
    FrameOffsetEntry :=
  { ID := i
    CompOffset := co
    DecompOffset := dOff
    CompSize := e.CompressedSize
    DecompSize := e.DecompressedSize
    Checksum := e.Checksum }

/-- The sequence of index entries the decoding loop constructs (before any
btree insertion): sequential ids, cumulative compressed and decompressed
offsets. -/
def cumEntries (es : List SeekTableEntry) (i : Int) (co dOff : Nat) :
    List FrameOffsetEntry :=
  match es with
  | [] => []
  | e :: rest =>
    cumHead e i co dOff ::
      cumEntries rest (i + 1) (co + e.CompressedSize)
        (dOff + e.DecompressedSize)

/-- The last constructed entry, or a fallback when none was constructed. -/
def lastOr (l : List FrameOffsetEntry) (last : Option FrameOffsetEntry) :
    Option FrameOffsetEntry :=
  match l.getLast? with
  | some x => some x
  | none => last

/-- `readSeekerEnvImpl.ReadFooter` over an in-memory file: seek to 9 bytes
before the end (failing when the file is shorter) and read them. -/
def envReadFooter (file : Bytes) : Except Err Bytes :=
  if file.length < seekTableFooterOffset then .error .footerTooSmall
  else .ok (file.drop (file.length - seekTableFooterOffset))

/-- `readSeekerEnvImpl.ReadSkipFrame` over an in-memory file: the last
`skippableFrameOffset` bytes. -/
def envReadSkipFrame (file : Bytes) (skippableFrameOffset : Nat) :
    Except Err Bytes :=
  if file.length < skippableFrameOffset then .error .skipFrameTooSmall
  else .ok (file.drop (file.length - skippableFrameOffset))

/-- `readerImpl.indexFooter`: read and parse the footer, derive the entry
stride from the checksum flag, bound and read the whole skippable frame,
verify its magic and size fields, and hand the entry table to
`indexSeekTableEntries`.  Returns the checksum flag, the index and the last
constructed entry. -/
def readerImpl.indexFooter (file : Bytes) :
    Except Err (Bool × List FrameOffsetEntry × Option FrameOffsetEntry) :=
  match envReadFooter file with
  | .error e => .error e
  | .ok buf =>
    if buf.length < seekTableFooterOffset then .error .footerTooSmall
    else
      match SeekTableFooter.UnmarshalBinary
          (buf.drop (buf.length - seekTableFooterOffset)) with
      | .error e => .error e
      | .ok footer =>
        if maxDecoderFrameSize < seekTableFooterOffset +
            (if footer.Descriptor.ChecksumFlag then 12 else 8) *
              footer.NumberOfFrames + 4 + 4 then
          .error .frameOffsetTooBig
        else
          match envReadSkipFrame file (seekTableFooterOffset +
              (if footer.Descriptor.ChecksumFlag then 12 else 8) *
                footer.NumberOfFrames + 4 + 4) with
          | .error e => .error e
          | .ok buf2 =>
            if buf2.length < 4 + 4 + seekTableFooterOffset then
              .error .skipFrameTooSmall
            else if getUint32LE buf2 ≠ skippableFrameMagic + seekableTag then
              .error .skippableMagicMismatch
            else if getUint32LE (buf2.drop 4) ≠
                buf2.length - 4 - 4 then .error .frameSizeMismatch
            else if maxDecoderFrameSize < getUint32LE (buf2.drop 4) then
              .error .frameTooBig
            else
              match readerImpl.indexSeekTableEntries
                  ((buf2.drop 8).take
                    (buf2.length - 8 - seekTableFooterOffset))
                  (if footer.Descriptor.ChecksumFlag then 12 else 8) with
              | .error e => .error e
              | .ok (t, last) => .ok (footer.Descriptor.ChecksumFlag, t, last)

/-- `NewReader`: build the index from the footer; `endOffset` and
`numFrames` come from the last constructed entry (zero when there is none);
the cursor starts at 0 and the cache is empty. -/
def NewReader (file : Bytes) : Except Err ReaderState :=
  match readerImpl.indexFooter file with
  | .error e => .error e
  | .ok (checksums, tree, last) =>
    match last with
    | some l => .ok
      { index := tree, checksums := checksums, offset := 0,
        numFrames := l.ID + 1,
        endOffset := l.DecompOffset + l.DecompSize,
        closed := false, cachedOffset := 0, cachedData := none }
    | none => .ok
      { index := tree, checksums := checksums, offset := 0,
        numFrames := 0, endOffset := 0, closed := false,
        cachedOffset := 0, cachedData := none }

/-- The entry `writerImpl.Encode` accrues for a non-empty chunk. -/
def mkEntry (c : Codec) (ch : Bytes) : SeekTableEntry :=
  { CompressedSize := (c.encodeAll ch).length % 4294967296
    DecompressedSize := ch.length % 4294967296
    Checksum := c.xxh64 ch % 4294967296 }

/-- Serial writer driving loop: `Write` every chunk in order, stopping at
the first error. -/
def writeAll (c : Codec) (s : WriterState) :
    List Bytes → WriterState × Option Err
  | [] => (s, none)
  | ch :: rest =>
    match writerImpl.Write c s ch with
    | (s1, _, none) => writeAll c s1 rest
    | (s1, _, some e) => (s1, some e)

/-- End-to-end writer: write all chunks through a fresh writer, close it,
and return the emitted byte stream (`none` on any error). -/
def writerFile (c : Codec) (chunks : List Bytes) : Option Bytes :=
  match writeAll c WriterState.initial chunks with
  | (_, some _) => none
  | (s1, none) =>
    match writerImpl.Close s1 with
    | (s2, none) => some s2.out
    | (_, some _) => none

/-- Sequential reading of exactly `n` bytes through repeated `Read` calls
(the `io.ReadFull` pattern), fuelled; `none` models divergence. -/
def readFullSeq (c : Codec) (file : Bytes) :
    Nat → ReaderState → Nat → Option (ReaderState × Bytes × Option Err)
  | 0, _, _ => none
  | fuel + 1, r, n =>
    if n = 0 then some (r, [], none)
    else
      match readerImpl.Read c file r n with
      | (r1, bytes, some e) => some (r1, bytes, some e)
      | (r1, bytes, none) =>
        if n ≤ bytes.length then some (r1, bytes.take n, none)
        else
          match readFullSeq c file fuel r1 (n - bytes.length) with
          | none => none
          | some (r2, rest, err) => some (r2, bytes ++ rest, err)

/-- Write `chunks` through the writer, open the output with the reader, and
positionally read `len` bytes at `off` via `ReadAt`; `some bytes` only when
every stage succeeds with no error. -/
def pipeReadAt (c : Codec) (chunks : List Bytes) (off len : Nat) :
    Option Bytes :=
  match writerFile c chunks with
  | none => none
  | some file =>
    match NewReader file with
    | .error _ => none
    | .ok r0 =>
      match readerImpl.ReadAt c file r0 len off with
      | some (_, bytes, none) => some bytes
      | _ => none

/-- Write `chunks` through the writer, open the output, `Seek(off, Start)`,
then sequentially read `len` bytes; `some bytes` only when every stage
succeeds with no error. -/
def pipeSeqRead (c : Codec) (chunks : List Bytes) (off len : Nat) :
    Option Bytes :=
  match writerFile c chunks with
  | none => none
  | some file =>
    match NewReader file with
    | .error _ => none
    | .ok r0 =>
      match readerImpl.Seek r0 off 0 with
      | (_, _, some _) => none
      | (_, r1, none) =>
        match readFullSeq c file (len + 1) r1 len with
        | some (_, bytes, none) => some bytes
        | _ => none

/-- The index entries induced by the writer's chunks: what `cumEntries`
computes on `chunks.map (mkEntry c)` once the u32 truncations are removed. -/
def canonEntries (c : Codec) (chunks : List Bytes) (i : Int) (co dOff : Nat) :
    List FrameOffsetEntry :=
  match chunks with
  | [] => []
  | ch :: rest =>
    ⟨i, co, dOff, (c.encodeAll ch).length, ch.length,
      c.xxh64 ch % 4294967296⟩ ::
      canonEntries c rest (i + 1) (co + (c.encodeAll ch).length)
        (dOff + ch.length)

/-- The canonical index entry of the chunk `ch` preceded by `pre`, relative
to base id `i` and base offsets `co`, `dOff`. -/
def canonEntryAt (c : Codec) (pre : List Bytes) (ch : Bytes) (i : Int)
    (co dOff : Nat) : FrameOffsetEntry :=
  ⟨i + pre.length, co + ((pre.map c.encodeAll).flatten).length,
    dOff + (pre.flatten).length, (c.encodeAll ch).length, ch.length,
    c.xxh64 ch % 4294967296⟩

/-- Cache invariant: the single-slot cache is either empty or holds exactly
the decompressed body of the frame starting at `cachedOffset`. -/
def CacheOK (_c : Codec) (chunks : List Bytes) (r : ReaderState) : Prop :=
  r.cachedData = none ∨
  ∃ pre ch post, chunks = pre ++ ch :: post ∧
    r.cachedOffset = (pre.flatten).length ∧ r.cachedData = some ch

/-- The reader-state invariant maintained by reads over a writer-produced
file: the canonical index, open state, checksums on, the exact end offset,
and a consistent cache. -/
def GoodReader (c : Codec) (chunks : List Bytes) (r : ReaderState) : Prop :=
  r.index = canonEntries c chunks 0 0 0 ∧
  r.closed = false ∧
  r.checksums = true ∧
  r.endOffset = (chunks.flatten).length ∧
  CacheOK c chunks r

/-- The seek-table payload the writer emits for a given entry list: entries
back-to-back followed by the 9-byte footer with the checksum flag set. -/
def seekTableBytes (es : List SeekTableEntry) : Bytes :=
  (es.map SeekTableEntry.marshalBinary).flatten ++
    SeekTableFooter.marshalBinary
      { NumberOfFrames := es.length % 4294967296
        Descriptor := { ChecksumFlag := true }
        SeekableMagicNumber := seekableMagicNumber }

/-- The complete seek-table skippable frame the writer emits on close. -/
def skipFrameBytes (es : List SeekTableEntry) : Bytes :=
  putUint32LE (skippableFrameMagic + seekableTag) ++
    putUint32LE (12 * es.length + 9) ++ seekTableBytes es

/-- Modelled from the spec: `encode_one` compresses a single frame and
returns the compressed bytes together with the matching seek-table
descriptor, without touching the shared entry list (the ordered consumer
appends it).  Guards mirror the serial `Encode`: frames and compressed
results larger than `2^32−1` are rejected. -/
def writerImpl.encodeOne (c : Codec) (src : Bytes) :
    Except Err (Bytes × SeekTableEntry) :=
  if maxUint32 < src.length then .error .oversizeFrame
  else if maxUint32 < (c.encodeAll src).length then .error .oversizeResult
  else .ok (c.encodeAll src, mkEntry c src)

/-- Shared state of the `WriteMany` pipeline: frames pulled from the source
and queued as promises, promise ids already fulfilled by compression tasks,
promises consumed in order, and the output bytes and entry list written by
the single consumer. -/
structure WMState where
  produced : Nat
  filled : List Nat
  consumed : Nat
  out : Bytes
  entries : List SeekTableEntry

/-- Start state of the `WriteMany` pipeline. -/
def WMState.start : WMState := ⟨0, [], 0, [], []⟩

/-- One interleaved step of the `WriteMany` pipeline: the producer queues
the next frame's promise (backpressure: the promise queue is bounded by
`2·concurrency`); a compression task fulfills the promise of any queued
frame, in any order; the single consumer dequeues promises strictly in
queue order, awaits fulfillment, appends the compressed bytes to the
output and the descriptor to the entry list. -/
inductive WMStep (c : Codec) (frames : List Bytes) (conc : Nat) :
    WMState → WMState → Prop
  | produce (s : WMState) :
      s.produced < frames.length →
      s.produced - s.consumed < 2 * conc →
      WMStep c frames conc s
        ⟨s.produced + 1, s.filled, s.consumed, s.out, s.entries⟩
  | fill (s : WMState) (i : Nat) :
      i < s.produced →
      WMStep c frames conc s
        ⟨s.produced, i :: s.filled, s.consumed, s.out, s.entries⟩
  | consume (s : WMState) (dst : Bytes) (entry : SeekTableEntry) :
      s.consumed < s.produced →
      s.consumed ∈ s.filled →
      writerImpl.encodeOne c (frames.getD s.consumed []) =
        .ok (dst, entry) →
      WMStep c frames conc s
        ⟨s.produced, s.filled, s.consumed + 1, s.out ++ dst,
          s.entries ++ [entry]⟩

/-- The identity codec: compression is the identity, decompression always
succeeds, the digest is constantly zero. -/
def idCodec : Codec := ⟨fun x => x, fun x => some x, fun _ => 0⟩

theorem putUint32LE_length (v : Nat) : (putUint32LE v).length = 4 := rfl

theorem getUint32LE_putUint32LE (v : Nat) (rest : Bytes) (h : v < 4294967296) :
    getUint32LE (putUint32LE v ++ rest) = v := by
  simp only [putUint32LE, getUint32LE, List.cons_append, List.nil_append,
    List.getD_cons_zero, List.getD_cons_succ]
  omega

/-- C8: `skippable_frame(tag=1, payload="T")` is the 9 exact bytes
`51 2A 4D 18 01 00 00 00 54`; any tag above `0x0F` with a non-empty payload
fails with `BadTag`; any payload longer than `2^32-1` (with a valid tag)
fails with `OversizeFrame`; and in general the output is the 4-byte LE
`skippable_magic | tag` followed by 4-byte LE payload length and payload. -/
theorem C8_createSkippableFrame_spec :
    createSkippableFrame 1 [0x54] =
      .ok [0x51, 0x2A, 0x4D, 0x18, 0x01, 0x00, 0x00, 0x00, 0x54] ∧
    (∀ tag payload, 0xF < tag → payload ≠ [] →
      createSkippableFrame tag payload = .error .badTag) ∧
    (∀ tag payload, tag ≤ 0xF → maxUint32 < payload.length →
      createSkippableFrame tag payload = .error .oversizeFrame) ∧
    (∀ tag payload, tag ≤ 0xF → payload ≠ [] → payload.length ≤ maxUint32 →
      createSkippableFrame tag payload =
        .ok (putUint32LE (Nat.lor skippableFrameMagic tag) ++
          putUint32LE payload.length ++ payload)) := by
  refine ⟨by rfl, ?_, ?_, ?_⟩
  · intro tag payload htag hne
    have hne0 : payload.length ≠ 0 := by
      simpa [List.length_eq_zero] using hne
    simp [createSkippableFrame, hne0, htag]
  · intro tag payload htag hlen
    have hne : payload.length ≠ 0 := by omega
    simp [createSkippableFrame, hne, Nat.not_lt.mpr htag, hlen]
  · intro tag payload htag hne hlen
    have hne0 : payload.length ≠ 0 := by
      simpa [List.length_eq_zero] using hne
    have hlor : Nat.lor skippableFrameMagic tag = skippableFrameMagic + tag := by
      interval_cases tag <;> decide
    simp [createSkippableFrame, hne0, Nat.not_lt.mpr htag,
      Nat.not_lt.mpr hlen, hlor]

/-- C8 witness: the theorem instantiated at concrete inputs. -/
theorem C8_createSkippableFrame_spec_witness :
    createSkippableFrame 255 [7] = .error .badTag ∧
    createSkippableFrame 2 [9, 9] =
      .ok (putUint32LE (Nat.lor skippableFrameMagic 2) ++
        putUint32LE 2 ++ [9, 9]) :=
  ⟨C8_createSkippableFrame_spec.2.1 255 [7] (by decide) (by decide),
   C8_createSkippableFrame_spec.2.2.2 2 [9, 9] (by decide) (by decide)
     (by decide)⟩

/-- C10: in `createSkippableFrame` the empty-payload check precedes tag
validation, so every tag (valid or not) with an empty payload yields an empty
output and no error. -/
theorem C10_empty_payload_skips_tag_check (tag : Nat) :
    createSkippableFrame tag [] = .ok [] := by
  simp [createSkippableFrame]

theorem reservedBits_as_div (x : Nat) (h : x < 256) :
    x % 256 * 2 % 256 / 8 = x / 4 % 32 := by
  omega

set_option maxRecDepth 4000 in
theorem land124_iff : ∀ x < 256, (Nat.land x 124 = 0 ↔ x / 4 % 32 = 0) := by
  decide

set_option maxRecDepth 4000 in
theorem land128_dep : ∀ x < 256, Nat.land x 128 = 128 * (x / 128) := by
  decide

theorem getUint32LE_take (p : Bytes) :
    getUint32LE (p.take 4) = getUint32LE p := by
  simp [getUint32LE, List.getD_eq_getElem?_getD, List.getElem?_take]

/-- C2: the footer decoder rejects reserved descriptor bits 2..6 with
`FormatReserved`; rejects any buffer whose length is not exactly 9 with
`FormatLength`; rejects a wrong trailing magic (once the earlier checks pass)
with `FormatMagic`; and decodes two inputs that differ only in descriptor
bits 0..1 identically. -/
theorem C2_footer_decode_contract :
    (∀ p : Bytes, p.length = 9 → p.getD 4 0 < 256 →
      Nat.land (p.getD 4 0) 124 ≠ 0 →
      SeekTableFooter.UnmarshalBinary p = .error .formatReserved) ∧
    (∀ p : Bytes, p.length ≠ 9 →
      SeekTableFooter.UnmarshalBinary p = .error .formatLength) ∧
    (∀ p : Bytes, p.length = 9 → p.getD 4 0 < 256 →
      Nat.land (p.getD 4 0) 124 = 0 →
      getUint32LE (p.drop 5) ≠ seekableMagicNumber →
      SeekTableFooter.UnmarshalBinary p = .error .formatMagic) ∧
    (∀ p q : Bytes, p.length = 9 → q.length = 9 →
      p.getD 4 0 < 256 → q.getD 4 0 < 256 →
      p.take 4 = q.take 4 → p.drop 5 = q.drop 5 →
      p.getD 4 0 / 4 = q.getD 4 0 / 4 →
      SeekTableFooter.UnmarshalBinary p = SeekTableFooter.UnmarshalBinary q) := by
  refine ⟨?_, ?_, ?_, ?_⟩
  · intro p hlen hbyte hres
    have h1 : p.getD 4 0 % 256 * 2 % 256 / 8 ≠ 0 := by
      rw [reservedBits_as_div _ hbyte]
      intro h0
      exact hres ((land124_iff _ hbyte).mpr h0)
    unfold SeekTableFooter.UnmarshalBinary
    rw [if_neg (by simp [hlen, seekTableFooterOffset]), if_pos h1]
  · intro p hlen
    unfold SeekTableFooter.UnmarshalBinary
    rw [if_pos (by simpa [seekTableFooterOffset] using hlen)]
  · intro p hlen hbyte hres hmagic
    have h1 : p.getD 4 0 % 256 * 2 % 256 / 8 = 0 := by
      rw [reservedBits_as_div _ hbyte]
      exact (land124_iff _ hbyte).mp hres
    unfold SeekTableFooter.UnmarshalBinary
    rw [if_neg (by simp [hlen, seekTableFooterOffset]),
      if_neg (not_ne_iff.mpr h1), if_pos hmagic]
  · intro p q hp hq hpb hqb htake hdrop hbits
    have hres : p.getD 4 0 % 256 * 2 % 256 / 8 =
        q.getD 4 0 % 256 * 2 % 256 / 8 := by
      rw [reservedBits_as_div _ hpb, reservedBits_as_div _ hqb, hbits]
    have hflag : Nat.land (p.getD 4 0) 128 = Nat.land (q.getD 4 0) 128 := by
      rw [land128_dep _ hpb, land128_dep _ hqb]
      have h128 : p.getD 4 0 / 128 = q.getD 4 0 / 128 := by omega
      rw [h128]
    have hnum : getUint32LE p = getUint32LE q := by
      rw [← getUint32LE_take p, ← getUint32LE_take q, htake]
    unfold SeekTableFooter.UnmarshalBinary
    rw [hp, hq, hres, hnum, hdrop, hflag]

/-- C2 witness: concrete applications of the four conjuncts. -/
theorem C2_footer_decode_contract_witness :
    SeekTableFooter.UnmarshalBinary [0, 0, 0, 0, 4, 0xB1, 0xEA, 0x92, 0x8F] =
      .error .formatReserved ∧
    SeekTableFooter.UnmarshalBinary [1, 2, 3] = .error .formatLength ∧
    SeekTableFooter.UnmarshalBinary [0, 0, 0, 0, 128, 0, 0, 0, 0] =
      .error .formatMagic ∧
    SeekTableFooter.UnmarshalBinary [7, 0, 0, 0, 131, 0xB1, 0xEA, 0x92, 0x8F] =
      SeekTableFooter.UnmarshalBinary [7, 0, 0, 0, 128, 0xB1, 0xEA, 0x92, 0x8F] :=
  ⟨C2_footer_decode_contract.1 _ (by decide) (by decide) (by decide),
   C2_footer_decode_contract.2.1 _ (by decide),
   C2_footer_decode_contract.2.2.1 _ (by decide) (by decide) (by decide)
     (by decide),
   C2_footer_decode_contract.2.2.2 _ _ (by decide) (by decide) (by decide)
     (by decide) (by decide) (by decide) (by decide)⟩

/-- C3: `Write` rejects chunks above `2^32-1` bytes with `OversizeFrame` and
leaves the writer untouched; an empty chunk returns 0 with no side effect
(no entry accrued, no bytes emitted); and a successful `Write` returns
`len(src)`, the number of uncompressed bytes ingested. -/
theorem C3_write_contract :
    (∀ c s src, maxUint32 < src.length →
      writerImpl.Write c s src = (s, 0, some .oversizeFrame)) ∧
    (∀ c s (src : Bytes), src.length = 0 →
      writerImpl.Write c s src = (s, 0, none)) ∧
    (∀ c s src s2 n, writerImpl.Write c s src = (s2, n, none) →
      n = src.length) := by
  refine ⟨?_, ?_, ?_⟩
  · intro c s src h
    simp [writerImpl.Write, writerImpl.Encode, h]
  · intro c s src h
    have h2 : ¬ maxUint32 < src.length := by
      rw [h]; decide
    have h3 : src = [] := List.length_eq_zero.mp h
    simp [writerImpl.Write, writerImpl.Encode, h2, h3]
  · intro c s src s2 n h
    unfold writerImpl.Write at h
    rcases h4 : writerImpl.Encode c s src with ⟨s1, dst, err⟩
    rw [h4] at h
    cases err with
    | none =>
      simp only [Prod.mk.injEq] at h
      exact h.2.1.symm
    | some e =>
      simp at h

/-- C3 witness: the three conjuncts applied at concrete inputs (the third
through a concrete successful write with an identity compressor). -/
theorem C3_write_contract_witness :
    writerImpl.Write ⟨id, some, fun _ => 0⟩ WriterState.initial
        (List.replicate 4294967296 0) =
      (WriterState.initial, 0, some .oversizeFrame) ∧
    writerImpl.Write ⟨id, some, fun _ => 0⟩ WriterState.initial [] =
      (WriterState.initial, 0, none) ∧
    (3 : Nat) = ([5, 6, 7] : Bytes).length :=
  ⟨C3_write_contract.1 _ _ _ (by rw [List.length_replicate]; decide),
   C3_write_contract.2.1 _ _ _ (by decide),
   C3_write_contract.2.2 ⟨id, some, fun _ => 0⟩ WriterState.initial [5, 6, 7]
     ⟨[⟨3, 3, 0⟩], [5, 6, 7], false⟩ 3 (by rfl)⟩

/-- C9: the first `Close` on an open writer emits exactly the seek-table
skippable frame produced by `EndStream`; any further `Close` changes nothing
and returns no error, so closing twice equals closing once. -/
theorem C9_close_idempotent (s : WriterState) (h : s.closedOnce = false) :
    (writerImpl.Close s).1.out =
      (s.out ++ match writerImpl.EndStream s with
        | .ok t => t
        | .error _ => []) ∧
    writerImpl.Close (writerImpl.Close s).1 = ((writerImpl.Close s).1, none) := by
  constructor
  · unfold writerImpl.Close
    rw [h]
    cases h2 : writerImpl.EndStream s with
    | error e => simp
    | ok t => simp
  · unfold writerImpl.Close
    rw [h]
    cases h2 : writerImpl.EndStream s with
    | error e => simp [writerImpl.Close]
    | ok t => simp [writerImpl.Close]

/-- C9 witness: a fresh writer closed twice. -/
theorem C9_close_idempotent_witness :
    (writerImpl.Close WriterState.initial).1.out =
      ([] ++ match writerImpl.EndStream WriterState.initial with
        | .ok t => t
        | .error _ => []) ∧
    writerImpl.Close (writerImpl.Close WriterState.initial).1 =
      ((writerImpl.Close WriterState.initial).1, none) :=
  C9_close_idempotent WriterState.initial rfl

/-- C4: for whence in {Start, Current, End}, `Seek` returns the new absolute
cursor position computed from that whence; a negative result fails with
`NegativeOffset` and leaves the cursor unchanged; seeking past end-of-stream
succeeds and the next sequential `Read` reports end-of-stream. -/
theorem C4_seek_contract (r : ReaderState) (offset : Int) (whence : Int)
    (hw : whence = 0 ∨ whence = 1 ∨ whence = 2) :
    (seekTarget r offset whence < 0 →
      readerImpl.Seek r offset whence = (0, r, some .negativeOffset)) ∧
    (0 ≤ seekTarget r offset whence →
      readerImpl.Seek r offset whence =
        (seekTarget r offset whence,
         { r with offset := seekTarget r offset whence }, none)) ∧
    (∀ c file dstLen, 0 ≤ seekTarget r offset whence →
      (r.endOffset : Int) ≤ seekTarget r offset whence → r.closed = false →
      readerImpl.Read c file (readerImpl.Seek r offset whence).2.1 dstLen =
        ({ r with offset := r.endOffset }, [], some .eof)) := by
  have hseek : readerImpl.Seek r offset whence =
      (if seekTarget r offset whence < 0 then (0, r, some .negativeOffset)
       else (seekTarget r offset whence,
         { r with offset := seekTarget r offset whence }, none)) := by
    rcases hw with h | h | h <;> subst h <;>
      simp [readerImpl.Seek, seekTarget]
  refine ⟨?_, ?_, ?_⟩
  · intro hneg
    rw [hseek, if_pos hneg]
  · intro hpos
    rw [hseek, if_neg (not_lt.mpr hpos)]
  · intro c file dstLen hpos hpast hclosed
    rw [hseek, if_neg (not_lt.mpr hpos)]
    simp only [readerImpl.Read, readerImpl.read, hclosed, Bool.false_eq_true,
      if_false, if_pos hpast]
    simp

/-- C4 witness: a concrete reader state seeked with each whence. -/
theorem C4_seek_contract_witness :
    (readerImpl.Seek ⟨[], true, 3, 0, 7, false, 0, none⟩ (-5) 0 =
      (0, ⟨[], true, 3, 0, 7, false, 0, none⟩, some .negativeOffset)) ∧
    (readerImpl.Seek ⟨[], true, 3, 0, 7, false, 0, none⟩ 2 1 =
      (5, ⟨[], true, 5, 0, 7, false, 0, none⟩, none)) ∧
    (readerImpl.Read ⟨id, some, fun _ => 0⟩ []
        (readerImpl.Seek ⟨[], true, 3, 0, 7, false, 0, none⟩ 1 2).2.1 4 =
      (⟨[], true, 7, 0, 7, false, 0, none⟩, [], some .eof)) := by
  refine ⟨?_, ?_, ?_⟩
  · exact (C4_seek_contract ⟨[], true, 3, 0, 7, false, 0, none⟩ (-5) 0
      (Or.inl rfl)).1 (by decide)
  · exact (C4_seek_contract ⟨[], true, 3, 0, 7, false, 0, none⟩ 2 1
      (Or.inr (Or.inl rfl))).2.1 (by decide)
  · exact (C4_seek_contract ⟨[], true, 3, 0, 7, false, 0, none⟩ 1 2
      (Or.inr (Or.inr rfl))).2.2 ⟨id, some, fun _ => 0⟩ [] 4 (by decide)
      (by decide) rfl

/-- C5: whenever the cursor of an open reader sits at or past end-of-stream,
a sequential `Read` returns no bytes together with the EOF signal and clamps
the cursor to exactly `endOffset`. -/
theorem C5_read_at_end_of_stream (c : Codec) (file : Bytes) (r : ReaderState)
    (dstLen : Nat) (hclosed : r.closed = false)
    (hoff : (r.endOffset : Int) ≤ r.offset) :
    readerImpl.Read c file r dstLen =
      ({ r with offset := r.endOffset }, [], some .eof) := by
  simp only [readerImpl.Read, readerImpl.read, hclosed, Bool.false_eq_true,
    if_false, if_pos hoff]
  simp

/-- C5 witness: a reader whose cursor is past `endOffset`. -/
theorem C5_read_at_end_of_stream_witness :
    readerImpl.Read ⟨id, some, fun _ => 0⟩ []
        ⟨[], true, 9, 0, 7, false, 0, none⟩ 4 =
      (⟨[], true, 7, 0, 7, false, 0, none⟩, [], some .eof) :=
  C5_read_at_end_of_stream ⟨id, some, fun _ => 0⟩ []
    ⟨[], true, 9, 0, 7, false, 0, none⟩ 4 rfl (by decide)

theorem lastOr_cons (a : FrameOffsetEntry) (l : List FrameOffsetEntry)
    (z : Option FrameOffsetEntry) :
    lastOr (a :: l) z = lastOr l (some a) := by
  cases l with
  | nil => rfl
  | cons b bs =>
    have h : ((b :: bs).getLast?).isSome := by
      rw [List.getLast?_isSome]
      simp
    unfold lastOr
    rw [List.getLast?_cons_cons]
    cases hx : (b :: bs).getLast? with
    | none => rw [hx] at h; simp at h
    | some x => rfl

theorem lastOr_none (l : List FrameOffsetEntry) :
    lastOr l none = l.getLast? := by
  unfold lastOr
  cases l.getLast? <;> rfl

theorem marshalBinary_length (e : SeekTableEntry) :
    (SeekTableEntry.marshalBinary e).length = 12 := rfl

theorem marshalBinary_assoc (e : SeekTableEntry) :
    SeekTableEntry.marshalBinary e =
      putUint32LE e.CompressedSize ++
        (putUint32LE e.DecompressedSize ++ putUint32LE e.Checksum) := by
  unfold SeekTableEntry.marshalBinary
  rw [List.append_assoc]

theorem entry_roundtrip (e : SeekTableEntry)
    (hcs : e.CompressedSize < 4294967296)
    (hds : e.DecompressedSize < 4294967296)
    (hck : e.Checksum < 4294967296) (rest : Bytes) :
    SeekTableEntry.UnmarshalBinary
      ((SeekTableEntry.marshalBinary e ++ rest).take 12) = .ok e := by
  have htake : (SeekTableEntry.marshalBinary e ++ rest).take 12 =
      SeekTableEntry.marshalBinary e :=
    List.take_left' (marshalBinary_length e)
  rw [htake]
  have hlen : (SeekTableEntry.marshalBinary e).length = 12 :=
    marshalBinary_length e
  have hA : getUint32LE (SeekTableEntry.marshalBinary e) =
      e.CompressedSize := by
    rw [marshalBinary_assoc]
    exact getUint32LE_putUint32LE _ _ hcs
  have hdrop4 : (SeekTableEntry.marshalBinary e).drop 4 =
      putUint32LE e.DecompressedSize ++ putUint32LE e.Checksum := by
    rw [marshalBinary_assoc]
    exact List.drop_left' (putUint32LE_length _)
  have hB : getUint32LE ((SeekTableEntry.marshalBinary e).drop 4) =
      e.DecompressedSize := by
    rw [hdrop4]
    exact getUint32LE_putUint32LE _ _ hds
  have hdrop8 : (SeekTableEntry.marshalBinary e).drop 8 =
      putUint32LE e.Checksum := by
    have h8 : (SeekTableEntry.marshalBinary e).drop 8 =
        ((SeekTableEntry.marshalBinary e).drop 4).drop 4 := by
      rw [List.drop_drop]
    rw [h8, hdrop4]
    exact List.drop_left' (putUint32LE_length _)
  have hC : getUint32LE ((SeekTableEntry.marshalBinary e).drop 8) =
      e.Checksum := by
    rw [hdrop8]
    have h := getUint32LE_putUint32LE e.Checksum [] hck
    simpa using h
  unfold SeekTableEntry.UnmarshalBinary
  rw [if_neg (by rw [hlen]; decide), hA, hB, hlen, if_pos (by decide), hC]

theorem btreeInsert_append (e : FrameOffsetEntry)
    (t : List FrameOffsetEntry)
    (h : ∀ x ∈ t, x.DecompOffset < e.DecompOffset) :
    btreeInsert e t = t ++ [e] := by
  induction t with
  | nil => rfl
  | cons x xs ih =>
    have hx : x.DecompOffset < e.DecompOffset := h x (by simp)
    unfold btreeInsert
    rw [if_neg (by omega), if_pos hx, ih (fun y hy => h y (by simp [hy]))]
    rfl

theorem indexEntriesGo_spec (es : List SeekTableEntry)
    (hb : ∀ e ∈ es, e.CompressedSize < 4294967296 ∧
      e.DecompressedSize < 4294967296 ∧ e.Checksum < 4294967296)
    (hpos : ∀ e ∈ es, 1 ≤ e.DecompressedSize) :
    ∀ (i : Int) (co dOff : Nat) (t : List FrameOffsetEntry)
      (last : Option FrameOffsetEntry),
      (∀ x ∈ t, x.DecompOffset < dOff) →
      indexEntriesGo 12 es.length
          ((es.map SeekTableEntry.marshalBinary).flatten) i co dOff t last =
        .ok (t ++ cumEntries es i co dOff,
          lastOr (cumEntries es i co dOff) last) := by
  induction es with
  | nil =>
    intro i co dOff t last _
    simp [indexEntriesGo, cumEntries, lastOr]
  | cons e rest ih =>
    intro i co dOff t last hlt
    obtain ⟨hcs, hds, hck⟩ := hb e (by simp)
    have hb2 : ∀ x ∈ rest, x.CompressedSize < 4294967296 ∧
        x.DecompressedSize < 4294967296 ∧ x.Checksum < 4294967296 :=
      fun x hx => hb x (by simp [hx])
    have hpos2 : ∀ x ∈ rest, 1 ≤ x.DecompressedSize :=
      fun x hx => hpos x (by simp [hx])
    have hposh : 1 ≤ e.DecompressedSize := hpos e (by simp)
    simp only [List.map_cons, List.flatten_cons, List.length_cons]
    unfold indexEntriesGo
    rw [entry_roundtrip e hcs hds hck]
    have hdrop : (SeekTableEntry.marshalBinary e ++
        (rest.map SeekTableEntry.marshalBinary).flatten).drop 12 =
        (rest.map SeekTableEntry.marshalBinary).flatten :=
      List.drop_left' (marshalBinary_length e)
    rw [hdrop]
    have hins : btreeInsert (cumHead e i co dOff) t =
        t ++ [cumHead e i co dOff] :=
      btreeInsert_append _ t (fun x hx => by
        show x.DecompOffset < (cumHead e i co dOff).DecompOffset
        exact hlt x hx)
    have hlt2 : ∀ x ∈ t ++ [cumHead e i co dOff],
        x.DecompOffset < dOff + e.DecompressedSize := by
      intro x hx
      rcases List.mem_append.mp hx with hx | hx
      · exact lt_of_lt_of_le (hlt x hx) (Nat.le_add_right _ _)
      · have hx2 : x = cumHead e i co dOff := by simpa using hx
        subst hx2
        show dOff < dOff + e.DecompressedSize
        omega
    show indexEntriesGo 12 rest.length
        ((rest.map SeekTableEntry.marshalBinary).flatten) (i + 1)
        (co + e.CompressedSize) (dOff + e.DecompressedSize)
        (btreeInsert (cumHead e i co dOff) t)
        (some (cumHead e i co dOff)) =
      Except.ok (t ++ cumEntries (e :: rest) i co dOff,
        lastOr (cumEntries (e :: rest) i co dOff) last)
    rw [hins, ih hb2 hpos2 (i + 1) (co + e.CompressedSize)
      (dOff + e.DecompressedSize) _ _ hlt2]
    have hcum : cumEntries (e :: rest) i co dOff =
        cumHead e i co dOff :: cumEntries rest (i + 1)
          (co + e.CompressedSize) (dOff + e.DecompressedSize) := rfl
    rw [hcum, lastOr_cons, List.append_assoc]
    rfl

theorem cumEntries_length (es : List SeekTableEntry) :
    ∀ i co dOff, (cumEntries es i co dOff).length = es.length := by
  induction es with
  | nil => intro i co dOff; rfl
  | cons e rest ih =>
    intro i co dOff
    simp [cumEntries, ih]

theorem cumEntries_ID_ge (es : List SeekTableEntry) :
    ∀ i co dOff, ∀ x ∈ cumEntries es i co dOff, i ≤ x.ID := by
  induction es with
  | nil => intro i co dOff x hx; simp [cumEntries] at hx
  | cons e rest ih =>
    intro i co dOff x hx
    rcases List.mem_cons.mp hx with hx | hx
    · subst hx; exact le_refl _
    · have := ih (i + 1) (co + e.CompressedSize)
        (dOff + e.DecompressedSize) x hx
      omega

theorem cumEntries_nodup_ID (es : List SeekTableEntry) :
    ∀ i co dOff, ((cumEntries es i co dOff).map FrameOffsetEntry.ID).Nodup := by
  induction es with
  | nil => intro i co dOff; simp [cumEntries]
  | cons e rest ih =>
    intro i co dOff
    rw [show cumEntries (e :: rest) i co dOff = cumHead e i co dOff ::
      cumEntries rest (i + 1) (co + e.CompressedSize)
        (dOff + e.DecompressedSize) from rfl]
    rw [List.map_cons, List.nodup_cons]
    constructor
    · intro hmem
      rcases List.mem_map.mp hmem with ⟨x, hx, hid⟩
      have := cumEntries_ID_ge rest (i + 1) _ _ x hx
      rw [hid] at this
      show False
      have hidh : (cumHead e i co dOff).ID = i := rfl
      rw [hidh] at this
      omega
    · exact ih (i + 1) _ _

theorem cumEntries_chain (es : List SeekTableEntry) :
    ∀ i co dOff, List.Chain' (fun a b => b.ID = a.ID + 1 ∧
      b.CompOffset = a.CompOffset + a.CompSize ∧
      b.DecompOffset = a.DecompOffset + a.DecompSize)
      (cumEntries es i co dOff) := by
  induction es with
  | nil => intro i co dOff; simp [cumEntries]
  | cons e rest ih =>
    intro i co dOff
    rw [show cumEntries (e :: rest) i co dOff = cumHead e i co dOff ::
      cumEntries rest (i + 1) (co + e.CompressedSize)
        (dOff + e.DecompressedSize) from rfl]
    cases hr : rest with
    | nil => simp [cumEntries]
    | cons e2 rest2 =>
      rw [show cumEntries (e2 :: rest2) (i + 1) (co + e.CompressedSize)
          (dOff + e.DecompressedSize) = cumHead e2 (i + 1)
          (co + e.CompressedSize) (dOff + e.DecompressedSize) ::
          cumEntries rest2 (i + 1 + 1)
          (co + e.CompressedSize + e2.CompressedSize)
          (dOff + e.DecompressedSize + e2.DecompressedSize) from rfl]
      refine List.Chain'.cons ⟨rfl, rfl, rfl⟩ ?_
      have h := ih (i + 1) (co + e.CompressedSize) (dOff + e.DecompressedSize)
      rw [hr] at h
      exact h

theorem flatten_marshal_length (es : List SeekTableEntry) :
    ((es.map SeekTableEntry.marshalBinary).flatten).length =
      12 * es.length := by
  induction es with
  | nil => rfl
  | cons e rest ih =>
    simp only [List.map_cons, List.flatten_cons, List.length_append,
      marshalBinary_length, ih, List.length_cons]
    omega

theorem indexSeekTableEntries_spec (es : List SeekTableEntry)
    (hb : ∀ e ∈ es, e.CompressedSize < 4294967296 ∧
      e.DecompressedSize < 4294967296 ∧ e.Checksum < 4294967296)
    (hpos : ∀ e ∈ es, 1 ≤ e.DecompressedSize) :
    readerImpl.indexSeekTableEntries
        ((es.map SeekTableEntry.marshalBinary).flatten) 12 =
      .ok (cumEntries es 0 0 0, (cumEntries es 0 0 0).getLast?) := by
  unfold readerImpl.indexSeekTableEntries
  rw [flatten_marshal_length es]
  rw [if_neg (by omega)]
  have hdiv : 12 * es.length / 12 = es.length := by omega
  rw [hdiv, indexEntriesGo_spec es hb hpos 0 0 0 [] none (by simp)]
  rw [List.nil_append, lastOr_none]

/-- C7 counterexample: a seek table with two entries whose first frame has
decompressed size 0 (so both frames start at decompressed offset 0).  The
btree's `ReplaceOrInsert` evicts the first frame: the resulting index holds a
single entry, with id 1 only — frame id 0 is not present, contradicting the
claim that every one of the N frames is present in the index. -/
theorem C7_counterexample :
    readerImpl.indexSeekTableEntries
        ((([⟨1, 0, 0⟩, ⟨1, 5, 0⟩] : List SeekTableEntry).map
          SeekTableEntry.marshalBinary).flatten) 12 =
      .ok ([⟨1, 1, 0, 1, 5, 0⟩], some ⟨1, 1, 0, 1, 5, 0⟩) ∧
    ([⟨1, 0, 0⟩, ⟨1, 5, 0⟩] : List SeekTableEntry).length = 2 ∧
    ([(⟨1, 1, 0, 1, 5, 0⟩ : FrameOffsetEntry)].map FrameOffsetEntry.ID) =
      [1] := by
  refine ⟨rfl, rfl, rfl⟩

/-- C7 (amended): parsing a marshalled seek table constructs, in order, one
entry per frame with `comp_off[0] = decomp_off[0] = 0`, cumulative
`comp_off` / `decomp_off` sums and sequential unique ids; and — amended —
when every frame has positive decompressed size (no shared `decomp_off`
boundary) the btree index holds exactly this sequence, so each of the N
frames is present with a unique id.  (With zero-size frames sharing a
boundary, only the last frame at each `decomp_off` survives;
see the counterexample.) -/
theorem C7_index_invariants (es : List SeekTableEntry)
    (hb : ∀ e ∈ es, e.CompressedSize < 4294967296 ∧
      e.DecompressedSize < 4294967296 ∧ e.Checksum < 4294967296)
    (hpos : ∀ e ∈ es, 1 ≤ e.DecompressedSize) :
    readerImpl.indexSeekTableEntries
        ((es.map SeekTableEntry.marshalBinary).flatten) 12 =
      .ok (cumEntries es 0 0 0, (cumEntries es 0 0 0).getLast?) ∧
    (cumEntries es 0 0 0).length = es.length ∧
    (∀ e₀, (cumEntries es 0 0 0).head? = some e₀ →
      e₀.ID = 0 ∧ e₀.CompOffset = 0 ∧ e₀.DecompOffset = 0) ∧
    List.Chain' (fun a b => b.ID = a.ID + 1 ∧
      b.CompOffset = a.CompOffset + a.CompSize ∧
      b.DecompOffset = a.DecompOffset + a.DecompSize)
      (cumEntries es 0 0 0) ∧
    ((cumEntries es 0 0 0).map FrameOffsetEntry.ID).Nodup := by
  refine ⟨indexSeekTableEntries_spec es hb hpos,
    cumEntries_length es 0 0 0, ?_, cumEntries_chain es 0 0 0,
    cumEntries_nodup_ID es 0 0 0⟩
  · intro e₀ h
    cases es with
    | nil => simp [cumEntries] at h
    | cons e rest =>
      have h2 : e₀ = cumHead e 0 0 0 := by
        rw [show cumEntries (e :: rest) 0 0 0 = cumHead e 0 0 0 ::
          cumEntries rest (0 + 1) (0 + e.CompressedSize)
            (0 + e.DecompressedSize) from rfl] at h
        simpa using h.symm
      subst h2
      exact ⟨rfl, rfl, rfl⟩

/-- C7 witness: the amended theorem at a one-entry table. -/
theorem C7_index_invariants_witness :
    (cumEntries ([⟨2, 3, 7⟩] : List SeekTableEntry) 0 0 0).length = 1 :=
  (C7_index_invariants [⟨2, 3, 7⟩] (by decide) (by decide)).2.1

theorem footerMarshal_length (f : SeekTableFooter) :
    (SeekTableFooter.marshalBinary f).length = 9 := by
  simp [SeekTableFooter.marshalBinary, putUint32LE]

theorem seekTableBytes_length (es : List SeekTableEntry) :
    (seekTableBytes es).length = 12 * es.length + 9 := by
  rw [seekTableBytes, List.length_append, flatten_marshal_length,
    footerMarshal_length]

theorem skipFrameBytes_length (es : List SeekTableEntry) :
    (skipFrameBytes es).length = 12 * es.length + 17 := by
  rw [skipFrameBytes, List.length_append, List.length_append,
    putUint32LE_length, putUint32LE_length, seekTableBytes_length]
  omega

theorem footer_roundtrip (n : Nat) (hn : n < 4294967296) :
    SeekTableFooter.UnmarshalBinary
      (SeekTableFooter.marshalBinary
        { NumberOfFrames := n
          Descriptor := { ChecksumFlag := true }
          SeekableMagicNumber := seekableMagicNumber }) =
      .ok { NumberOfFrames := n
            Descriptor := { ChecksumFlag := true }
            SeekableMagicNumber := seekableMagicNumber } := by
  have hm : SeekTableFooter.marshalBinary
      { NumberOfFrames := n
        Descriptor := { ChecksumFlag := true }
        SeekableMagicNumber := seekableMagicNumber } =
      n % 256 :: (n / 256 % 256 :: (n / 65536 % 256 :: (n / 16777216 % 256 ::
        (128 :: (0xB1 :: (0xEA :: (0x92 :: [0x8F]))))))) := rfl
  rw [hm]
  unfold SeekTableFooter.UnmarshalBinary
  rw [if_neg (by simp [seekTableFooterOffset]),
    if_neg (by simp [List.getD]),
    if_neg (by simp [getUint32LE, List.getD, seekableMagicNumber])]
  have h1 : getUint32LE (n % 256 :: (n / 256 % 256 :: (n / 65536 % 256 ::
      (n / 16777216 % 256 :: (128 :: (0xB1 :: (0xEA :: (0x92 ::
        [0x8F])))))))) = n := by
    simp only [getUint32LE, List.getD_cons_zero, List.getD_cons_succ]
    omega
  rw [h1]
  have hg : ((n % 256 :: (n / 256 % 256 :: (n / 65536 % 256 ::
      (n / 16777216 % 256 :: (128 :: (0xB1 :: (0xEA :: (0x92 ::
        [0x8F])))))))) : Bytes).getD 4 0 = 128 := rfl
  rw [hg]
  have hd : decide (0 < Nat.land 128 128) = true := by decide
  rw [hd]
  have h5 : ((n % 256 :: (n / 256 % 256 :: (n / 65536 % 256 ::
      (n / 16777216 % 256 :: (128 :: (0xB1 :: (0xEA :: (0x92 ::
        [0x8F])))))))) : Bytes).drop 5 = [0xB1, 0xEA, 0x92, 0x8F] := rfl
  rw [h5]
  have h6 : getUint32LE [0xB1, 0xEA, 0x92, 0x8F] = seekableMagicNumber := by
    decide
  rw [h6]

theorem write_success (c : Codec) (s : WriterState) (ch : Bytes)
    (h1 : ch ≠ []) (h2 : ch.length ≤ maxUint32)
    (h3 : (c.encodeAll ch).length ≤ maxUint32) :
    writerImpl.Write c s ch =
      ({ s with
          frameEntries := s.frameEntries ++ [mkEntry c ch],
          out := s.out ++ c.encodeAll ch }, ch.length, none) := by
  have h0 : ch.length ≠ 0 := by simpa [List.length_eq_zero] using h1
  unfold writerImpl.Write writerImpl.Encode
  rw [if_neg (not_lt.mpr h2), if_neg h0, if_neg (not_lt.mpr h3)]
  rfl

theorem writeAll_spec (c : Codec) (chunks : List Bytes)
    (hne : ∀ ch ∈ chunks, ch ≠ [])
    (hlen : ∀ ch ∈ chunks, ch.length ≤ maxUint32)
    (henc : ∀ ch ∈ chunks, (c.encodeAll ch).length ≤ maxUint32) :
    ∀ s, writeAll c s chunks =
      ({ s with
         frameEntries := s.frameEntries ++ chunks.map (mkEntry c),
         out := s.out ++ (chunks.map c.encodeAll).flatten }, none) := by
  induction chunks with
  | nil =>
    intro s
    simp [writeAll]
  | cons ch rest ih =>
    intro s
    unfold writeAll
    rw [write_success c s ch (hne ch (by simp)) (hlen ch (by simp))
      (henc ch (by simp))]
    show writeAll c
      ({ s with
          frameEntries := s.frameEntries ++ [mkEntry c ch],
          out := s.out ++ c.encodeAll ch }) rest = _
    rw [ih (fun x hx => hne x (by simp [hx]))
      (fun x hx => hlen x (by simp [hx]))
      (fun x hx => henc x (by simp [hx]))]
    simp [List.append_assoc]

theorem endStream_spec (s : WriterState)
    (hN : 12 * s.frameEntries.length + 9 ≤ maxUint32) :
    writerImpl.EndStream s = .ok (skipFrameBytes s.frameEntries) := by
  unfold writerImpl.EndStream
  rw [if_neg (by omega)]
  have hplen : ((s.frameEntries.map SeekTableEntry.marshalBinary).flatten ++
      SeekTableFooter.marshalBinary
        { NumberOfFrames := s.frameEntries.length % 4294967296
          Descriptor := { ChecksumFlag := true }
          SeekableMagicNumber := seekableMagicNumber }).length =
      12 * s.frameEntries.length + 9 := by
    rw [List.length_append, flatten_marshal_length, footerMarshal_length]
  unfold createSkippableFrame
  rw [hplen, if_neg (by omega), if_neg (by decide), if_neg (by omega)]
  rfl

theorem close_fresh (s : WriterState) (hclosed : s.closedOnce = false)
    (hN : 12 * s.frameEntries.length + 9 ≤ maxUint32) :
    writerImpl.Close s =
      ({ s with
          closedOnce := true,
          out := s.out ++ skipFrameBytes s.frameEntries }, none) := by
  unfold writerImpl.Close
  rw [hclosed, endStream_spec s hN]
  simp

theorem writerFile_spec (c : Codec) (chunks : List Bytes)
    (hne : ∀ ch ∈ chunks, ch ≠ [])
    (hlen : ∀ ch ∈ chunks, ch.length ≤ maxUint32)
    (henc : ∀ ch ∈ chunks, (c.encodeAll ch).length ≤ maxDecoderFrameSize)
    (hN : 12 * chunks.length + 17 ≤ maxDecoderFrameSize) :
    writerFile c chunks =
      some ((chunks.map c.encodeAll).flatten ++
        skipFrameBytes (chunks.map (mkEntry c))) := by
  have hmd : maxDecoderFrameSize = 134217728 := rfl
  have hmu : maxUint32 = 4294967295 := rfl
  have henc2 : ∀ ch ∈ chunks, (c.encodeAll ch).length ≤ maxUint32 := by
    intro ch h
    have := henc ch h
    omega
  unfold writerFile
  rw [writeAll_spec c chunks hne hlen henc2 WriterState.initial]
  have hclose := close_fresh
    ({ frameEntries := [] ++ chunks.map (mkEntry c),
       out := [] ++ (chunks.map c.encodeAll).flatten,
       closedOnce := false } : WriterState) rfl
    (by
      show 12 * ([] ++ chunks.map (mkEntry c)).length + 9 ≤ maxUint32
      rw [List.nil_append, List.length_map]
      omega)
  show (match writerImpl.Close
      ({ frameEntries := [] ++ chunks.map (mkEntry c),
         out := [] ++ (chunks.map c.encodeAll).flatten,
         closedOnce := false } : WriterState) with
    | (s2, none) => some s2.out
    | (_, some _) => none) = _
  rw [hclose]
  show some ([] ++ (chunks.map c.encodeAll).flatten ++
    skipFrameBytes ([] ++ chunks.map (mkEntry c))) = _
  rw [List.nil_append, List.nil_append]

theorem drop_last_k (X Y : Bytes) (k : Nat) (hk : Y.length = k) :
    (X ++ Y).drop ((X ++ Y).length - k) = Y := by
  subst hk
  have h : (X ++ Y).length - Y.length = X.length := by simp
  rw [h, List.drop_left]

theorem canonEntries_eq (c : Codec) (chunks : List Bytes)
    (hlen : ∀ ch ∈ chunks, ch.length ≤ maxUint32)
    (henc : ∀ ch ∈ chunks, (c.encodeAll ch).length ≤ maxUint32) :
    ∀ i co dOff, cumEntries (chunks.map (mkEntry c)) i co dOff =
      canonEntries c chunks i co dOff := by
  have hmu : maxUint32 = 4294967295 := rfl
  induction chunks with
  | nil => intro i co dOff; rfl
  | cons ch rest ih =>
    intro i co dOff
    have h1 : ch.length % 4294967296 = ch.length :=
      Nat.mod_eq_of_lt (by have := hlen ch (by simp); omega)
    have h2 : (c.encodeAll ch).length % 4294967296 = (c.encodeAll ch).length :=
      Nat.mod_eq_of_lt (by have := henc ch (by simp); omega)
    have hcs : (mkEntry c ch).CompressedSize = (c.encodeAll ch).length := h2
    have hds : (mkEntry c ch).DecompressedSize = ch.length := h1
    show cumHead (mkEntry c ch) i co dOff ::
        cumEntries (rest.map (mkEntry c)) (i + 1)
          (co + (mkEntry c ch).CompressedSize)
          (dOff + (mkEntry c ch).DecompressedSize) =
      canonEntries c (ch :: rest) i co dOff
    have hhead : cumHead (mkEntry c ch) i co dOff =
        (⟨i, co, dOff, (c.encodeAll ch).length, ch.length,
          c.xxh64 ch % 4294967296⟩ : FrameOffsetEntry) := by
      unfold cumHead
      rw [hcs, hds]
      rw [show (mkEntry c ch).Checksum = c.xxh64 ch % 4294967296 from rfl]
    rw [hhead, hcs, hds, ih (fun x hx => hlen x (by simp [hx]))
      (fun x hx => henc x (by simp [hx]))]
    rfl

theorem getLast?_cons_ne {α : Type} (a : α) (l : List α) (h : l ≠ []) :
    (a :: l).getLast? = l.getLast? := by
  cases l with
  | nil => exact absurd rfl h
  | cons b bs => rw [List.getLast?_cons_cons]

theorem canonEntries_getLast_end (c : Codec) (chunks : List Bytes) :
    ∀ i co dOff, chunks ≠ [] →
      ∃ l, (canonEntries c chunks i co dOff).getLast? = some l ∧
        l.DecompOffset + l.DecompSize = dOff + (chunks.flatten).length := by
  induction chunks with
  | nil => intro i co dOff h; exact absurd rfl h
  | cons ch rest ih =>
    intro i co dOff _
    by_cases hr : rest = []
    · subst hr
      refine ⟨⟨i, co, dOff, (c.encodeAll ch).length, ch.length,
        c.xxh64 ch % 4294967296⟩, by simp [canonEntries], by simp⟩
    · obtain ⟨l, hl, hend⟩ := ih (i + 1) (co + (c.encodeAll ch).length)
        (dOff + ch.length) hr
      have hne2 : canonEntries c rest (i + 1) (co + (c.encodeAll ch).length)
          (dOff + ch.length) ≠ [] := by
        intro h0
        rw [h0] at hl
        simp at hl
      refine ⟨l, ?_, ?_⟩
      · show ((⟨i, co, dOff, (c.encodeAll ch).length, ch.length,
          c.xxh64 ch % 4294967296⟩ : FrameOffsetEntry) ::
          canonEntries c rest (i + 1) (co + (c.encodeAll ch).length)
            (dOff + ch.length)).getLast? = some l
        rw [getLast?_cons_ne _ _ hne2, hl]
      · rw [hend]
        show _ = dOff + ((ch :: rest).flatten).length
        rw [List.flatten_cons, List.length_append]
        omega

theorem indexFooter_spec (c : Codec) (chunks : List Bytes)
    (hne : ∀ ch ∈ chunks, ch ≠ [])
    (hlen : ∀ ch ∈ chunks, ch.length ≤ maxUint32)
    (henc : ∀ ch ∈ chunks, (c.encodeAll ch).length ≤ maxDecoderFrameSize)
    (hN : 12 * chunks.length + 17 ≤ maxDecoderFrameSize) :
    readerImpl.indexFooter ((chunks.map c.encodeAll).flatten ++
        skipFrameBytes (chunks.map (mkEntry c))) =
      .ok (true, canonEntries c chunks 0 0 0,
        (canonEntries c chunks 0 0 0).getLast?) := by
  have hmd : maxDecoderFrameSize = 134217728 := rfl
  have hmu : maxUint32 = 4294967295 := rfl
  have hsso : seekTableFooterOffset = 9 := rfl
  have hNes : (chunks.map (mkEntry c)).length = chunks.length :=
    List.length_map _ _
  have hmodN : chunks.length % 4294967296 = chunks.length :=
    Nat.mod_eq_of_lt (by omega)
  have hfl : (skipFrameBytes (chunks.map (mkEntry c))).length =
      12 * chunks.length + 17 := by
    rw [skipFrameBytes_length, hNes]
  have hlenBH : ((chunks.map c.encodeAll).flatten ++
      skipFrameBytes (chunks.map (mkEntry c))).length =
      ((chunks.map c.encodeAll).flatten).length +
        (12 * chunks.length + 17) := by
    rw [List.length_append, hfl]
  have hFb9 : (SeekTableFooter.marshalBinary
      { NumberOfFrames := (chunks.map (mkEntry c)).length % 4294967296
        Descriptor := { ChecksumFlag := true }
        SeekableMagicNumber := seekableMagicNumber }).length = 9 :=
    footerMarshal_length _
  have hassoc : (chunks.map c.encodeAll).flatten ++
      skipFrameBytes (chunks.map (mkEntry c)) =
      ((chunks.map c.encodeAll).flatten ++
        (putUint32LE (skippableFrameMagic + seekableTag) ++
          (putUint32LE (12 * (chunks.map (mkEntry c)).length + 9) ++
            ((chunks.map (mkEntry c)).map SeekTableEntry.marshalBinary).flatten))) ++
        SeekTableFooter.marshalBinary
          { NumberOfFrames := (chunks.map (mkEntry c)).length % 4294967296
            Descriptor := { ChecksumFlag := true }
            SeekableMagicNumber := seekableMagicNumber } := by
    simp [skipFrameBytes, seekTableBytes, List.append_assoc]
  have henvF : envReadFooter ((chunks.map c.encodeAll).flatten ++
      skipFrameBytes (chunks.map (mkEntry c))) =
      .ok (SeekTableFooter.marshalBinary
        { NumberOfFrames := (chunks.map (mkEntry c)).length % 4294967296
          Descriptor := { ChecksumFlag := true }
          SeekableMagicNumber := seekableMagicNumber }) := by
    unfold envReadFooter
    rw [if_neg (by rw [hlenBH]; omega)]
    rw [hsso]
    rw [hassoc]
    rw [drop_last_k _ _ 9 hFb9]
  have hunm : SeekTableFooter.UnmarshalBinary
      ((SeekTableFooter.marshalBinary
        { NumberOfFrames := (chunks.map (mkEntry c)).length % 4294967296
          Descriptor := { ChecksumFlag := true }
          SeekableMagicNumber := seekableMagicNumber }).drop
        ((SeekTableFooter.marshalBinary
          { NumberOfFrames := (chunks.map (mkEntry c)).length % 4294967296
            Descriptor := { ChecksumFlag := true }
            SeekableMagicNumber := seekableMagicNumber }).length -
          seekTableFooterOffset)) =
      .ok { NumberOfFrames := chunks.length
            Descriptor := { ChecksumFlag := true }
            SeekableMagicNumber := seekableMagicNumber } := by
    rw [hFb9, hsso]
    rw [show (9 : Nat) - 9 = 0 from rfl, List.drop_zero]
    rw [hNes, hmodN]
    exact footer_roundtrip chunks.length (by omega)
  have hTlen : (((chunks.map (mkEntry c)).map
      SeekTableEntry.marshalBinary).flatten).length = 12 * chunks.length := by
    rw [flatten_marshal_length, hNes]
  have hH : skipFrameBytes (chunks.map (mkEntry c)) =
      putUint32LE (skippableFrameMagic + seekableTag) ++
        (putUint32LE (12 * (chunks.map (mkEntry c)).length + 9) ++
          seekTableBytes (chunks.map (mkEntry c))) := by
    rw [skipFrameBytes, List.append_assoc]
  have hm1 : getUint32LE (skipFrameBytes (chunks.map (mkEntry c))) =
      skippableFrameMagic + seekableTag := by
    rw [hH]
    exact getUint32LE_putUint32LE _ _ (by decide)
  have hd4 : (skipFrameBytes (chunks.map (mkEntry c))).drop 4 =
      putUint32LE (12 * (chunks.map (mkEntry c)).length + 9) ++
        seekTableBytes (chunks.map (mkEntry c)) := by
    rw [hH]
    exact List.drop_left' (putUint32LE_length _)
  have hm2 : getUint32LE ((skipFrameBytes (chunks.map (mkEntry c))).drop 4) =
      12 * chunks.length + 9 := by
    rw [hd4, hNes]
    exact getUint32LE_putUint32LE _ _ (by omega)
  have ht8 : (skipFrameBytes (chunks.map (mkEntry c))).drop 8 =
      seekTableBytes (chunks.map (mkEntry c)) := by
    have h84 : (skipFrameBytes (chunks.map (mkEntry c))).drop 8 =
        ((skipFrameBytes (chunks.map (mkEntry c))).drop 4).drop 4 := by
      rw [List.drop_drop]
    rw [h84, hd4]
    exact List.drop_left' (putUint32LE_length _)
  have htake : ((skipFrameBytes (chunks.map (mkEntry c))).drop 8).take
      ((skipFrameBytes (chunks.map (mkEntry c))).length - 8 -
        seekTableFooterOffset) =
      ((chunks.map (mkEntry c)).map SeekTableEntry.marshalBinary).flatten := by
    rw [ht8, seekTableBytes]
    exact List.take_left' (by rw [hTlen, hfl, hsso]; omega)
  have hbES : ∀ e ∈ chunks.map (mkEntry c), e.CompressedSize < 4294967296 ∧
      e.DecompressedSize < 4294967296 ∧ e.Checksum < 4294967296 := by
    intro e he
    rcases List.mem_map.mp he with ⟨ch, _, hch⟩
    subst hch
    exact ⟨Nat.mod_lt _ (by decide), Nat.mod_lt _ (by decide),
      Nat.mod_lt _ (by decide)⟩
  have hposES : ∀ e ∈ chunks.map (mkEntry c), 1 ≤ e.DecompressedSize := by
    intro e he
    rcases List.mem_map.mp he with ⟨ch, hchmem, hch⟩
    subst hch
    show 1 ≤ ch.length % 4294967296
    have hb := hlen ch hchmem
    have hnn : ch.length ≠ 0 := by
      simpa [List.length_eq_zero] using hne ch hchmem
    rw [Nat.mod_eq_of_lt (by omega)]
    omega
  have hidx := indexSeekTableEntries_spec (chunks.map (mkEntry c)) hbES hposES
  have hcanon := canonEntries_eq c chunks hlen
    (fun ch h => by have := henc ch h; omega) 0 0 0
  have henv2 : envReadSkipFrame ((chunks.map c.encodeAll).flatten ++
      skipFrameBytes (chunks.map (mkEntry c)))
      (seekTableFooterOffset + 12 * chunks.length + 4 + 4) =
      .ok (skipFrameBytes (chunks.map (mkEntry c))) := by
    unfold envReadSkipFrame
    rw [if_neg (by rw [hlenBH, hsso]; omega)]
    rw [drop_last_k _ _ _ (by rw [hfl, hsso]; omega)]
  unfold readerImpl.indexFooter
  split
  next e heq =>
    rw [henvF] at heq
    simp at heq
  next buf heq =>
    rw [henvF] at heq
    injection heq with hbuf
    subst hbuf
    rw [if_neg (by rw [hFb9, hsso]; omega)]
    split
    next e heq2 =>
      rw [hunm] at heq2
      simp at heq2
    next footer heq2 =>
      rw [hunm] at heq2
      injection heq2 with hfooter
      subst hfooter
      rw [show ((⟨chunks.length, ⟨true⟩, seekableMagicNumber⟩ : SeekTableFooter)).Descriptor.ChecksumFlag = true from rfl]
      rw [show ((⟨chunks.length, ⟨true⟩, seekableMagicNumber⟩ : SeekTableFooter)).NumberOfFrames = chunks.length from rfl]
      rw [if_pos rfl]
      rw [if_neg (by rw [hsso]; omega)]
      split
      next e heq3 =>
        rw [henv2] at heq3
        simp at heq3
      next buf2 heq3 =>
        rw [henv2] at heq3
        injection heq3 with hbuf2
        subst hbuf2
        rw [if_neg (by rw [hfl, hsso]; omega)]
        rw [if_neg (not_ne_iff.mpr hm1)]
        rw [if_neg (not_ne_iff.mpr (by rw [hm2, hfl]; omega))]
        rw [if_neg (by rw [hm2]; omega)]
        rw [htake]
        split
        next e heq4 =>
          rw [hidx] at heq4
          simp at heq4
        next t last heq4 =>
          rw [hidx] at heq4
          injection heq4 with hpair
          rw [Prod.mk.injEq] at hpair
          obtain ⟨ht, hlast⟩ := hpair
          subst ht
          subst hlast
          rw [hcanon]

theorem newReader_spec (c : Codec) (chunks : List Bytes)
    (hne : ∀ ch ∈ chunks, ch ≠ [])
    (hlen : ∀ ch ∈ chunks, ch.length ≤ maxUint32)
    (henc : ∀ ch ∈ chunks, (c.encodeAll ch).length ≤ maxDecoderFrameSize)
    (hN : 12 * chunks.length + 17 ≤ maxDecoderFrameSize) :
    ∃ r0, NewReader ((chunks.map c.encodeAll).flatten ++
        skipFrameBytes (chunks.map (mkEntry c))) = .ok r0 ∧
      GoodReader c chunks r0 ∧ r0.offset = 0 := by
  unfold NewReader
  rw [indexFooter_spec c chunks hne hlen henc hN]
  by_cases hch : chunks = []
  · subst hch
    exact ⟨⟨[], true, 0, 0, 0, false, 0, none⟩, rfl,
      ⟨rfl, rfl, rfl, rfl, Or.inl rfl⟩, rfl⟩
  · obtain ⟨l, hl, hend⟩ := canonEntries_getLast_end c chunks 0 0 0 hch
    rw [hl]
    refine ⟨⟨canonEntries c chunks 0 0 0, true, 0, l.ID + 1,
      l.DecompOffset + l.DecompSize, false, 0, none⟩, rfl,
      ⟨rfl, rfl, rfl, ?_, Or.inl rfl⟩, rfl⟩
    show l.DecompOffset + l.DecompSize = (chunks.flatten).length
    omega

theorem canonEntries_key_ge (c : Codec) (chunks : List Bytes) :
    ∀ i co dOff, ∀ x ∈ canonEntries c chunks i co dOff,
      dOff ≤ x.DecompOffset := by
  induction chunks with
  | nil => intro i co dOff x hx; simp [canonEntries] at hx
  | cons ch rest ih =>
    intro i co dOff x hx
    rcases List.mem_cons.mp hx with hx | hx
    · subst hx; exact le_refl _
    · have := ih (i + 1) (co + (c.encodeAll ch).length) (dOff + ch.length)
        x hx
      omega

theorem resolve_spec (c : Codec) :
    ∀ (chunks : List Bytes), (∀ ch ∈ chunks, ch ≠ []) →
    ∀ (i : Int) (co dOff off : Nat), dOff ≤ off →
      off < dOff + (chunks.flatten).length →
      ∃ pre ch post, chunks = pre ++ ch :: post ∧
        descendLessOrEqual (canonEntries c chunks i co dOff) off =
          some (canonEntryAt c pre ch i co dOff) ∧
        dOff + (pre.flatten).length ≤ off ∧
        off < dOff + (pre.flatten).length + ch.length := by
  intro chunks
  induction chunks with
  | nil =>
    intro _ i co dOff off h1 h2
    simp at h2
    omega
  | cons ch rest ih =>
    intro hne i co dOff off h1 h2
    by_cases hcase : off < dOff + ch.length
    · refine ⟨[], ch, rest, rfl, ?_, by simpa using h1, by simpa using hcase⟩
      unfold descendLessOrEqual
      show (((⟨i, co, dOff, (c.encodeAll ch).length, ch.length,
          c.xxh64 ch % 4294967296⟩ : FrameOffsetEntry) ::
        canonEntries c rest (i + 1) (co + (c.encodeAll ch).length)
          (dOff + ch.length)).filter
          (fun e => decide (e.DecompOffset ≤ off))).getLast? =
        some (canonEntryAt c [] ch i co dOff)
      rw [List.filter_cons_of_pos (by exact decide_eq_true h1)]
      have hrest : (canonEntries c rest (i + 1)
          (co + (c.encodeAll ch).length) (dOff + ch.length)).filter
          (fun e => decide (e.DecompOffset ≤ off)) = [] := by
        rw [List.filter_eq_nil_iff]
        intro x hx
        have := canonEntries_key_ge c rest (i + 1)
          (co + (c.encodeAll ch).length) (dOff + ch.length) x hx
        simp
        omega
      rw [hrest]
      simp [canonEntryAt]
    · have h2' : off < (dOff + ch.length) + (rest.flatten).length := by
        rw [List.flatten_cons, List.length_append] at h2
        omega
      obtain ⟨pre, chf, post, hsplit, hdesc, hlow, hhigh⟩ :=
        ih (fun x hx => hne x (by simp [hx])) (i + 1)
          (co + (c.encodeAll ch).length) (dOff + ch.length) off
          (by omega) h2'
      refine ⟨ch :: pre, chf, post, by rw [List.cons_append, hsplit], ?_,
        ?_, ?_⟩
      · unfold descendLessOrEqual at hdesc ⊢
        show (((⟨i, co, dOff, (c.encodeAll ch).length, ch.length,
            c.xxh64 ch % 4294967296⟩ : FrameOffsetEntry) ::
          canonEntries c rest (i + 1) (co + (c.encodeAll ch).length)
            (dOff + ch.length)).filter
            (fun e => decide (e.DecompOffset ≤ off))).getLast? =
          some (canonEntryAt c (ch :: pre) chf i co dOff)
        rw [List.filter_cons_of_pos (by exact decide_eq_true h1)]
        have hfne : (canonEntries c rest (i + 1)
            (co + (c.encodeAll ch).length) (dOff + ch.length)).filter
            (fun e => decide (e.DecompOffset ≤ off)) ≠ [] := by
          intro h0
          rw [h0] at hdesc
          simp at hdesc
        rw [getLast?_cons_ne _ _ hfne, hdesc]
        congr 1
        unfold canonEntryAt
        rw [FrameOffsetEntry.mk.injEq]
        refine ⟨?_, ?_, ?_, rfl, rfl, rfl⟩
        · simp only [List.length_cons]
          push_cast
          ring
        · rw [List.map_cons, List.flatten_cons, List.length_append]
          omega
        · rw [List.flatten_cons, List.length_append]
          omega
      · rw [List.flatten_cons, List.length_append]
        omega
      · rw [List.flatten_cons, List.length_append]
        omega

theorem slice_mid (A mid B t : Bytes) :
    (((A ++ (mid ++ B)) ++ t).drop A.length).take mid.length = mid := by
  rw [List.append_assoc, List.drop_left, List.append_assoc, List.take_left]

theorem flatten_split (c : Codec) (chunks : List Bytes) (pre : List Bytes)
    (ch : Bytes) (post : List Bytes)
    (hsplit : chunks = pre ++ ch :: post) :
    (chunks.map c.encodeAll).flatten =
      (pre.map c.encodeAll).flatten ++
        (c.encodeAll ch ++ (post.map c.encodeAll).flatten) ∧
    chunks.flatten = pre.flatten ++ (ch ++ post.flatten) := by
  subst hsplit
  constructor
  · simp [List.append_assoc]
  · simp [List.append_assoc]

theorem drop_mid (A mid B : Bytes) (off : Nat) (h1 : A.length ≤ off)
    (h2 : off ≤ A.length + mid.length) :
    (A ++ (mid ++ B)).drop off = mid.drop (off - A.length) ++ B := by
  rw [List.drop_append_eq_append_drop, List.drop_append_eq_append_drop,
    List.drop_eq_nil_of_le h1,
    show off - A.length - mid.length = 0 by omega, List.drop_zero]
  simp

theorem take_within (X B : Bytes) (size : Nat) (h : size ≤ X.length) :
    (X ++ B).take size = X.take size := by
  rw [List.take_append_eq_append_take,
    show size - X.length = 0 by omega, List.take_zero, List.append_nil]

theorem fetchFrame_spec (c : Codec) (chunks : List Bytes) (pre : List Bytes)
    (ch : Bytes) (post : List Bytes)
    (t : Bytes) (hsplit : chunks = pre ++ ch :: post)
    (hdec : c.decodeAll (c.encodeAll ch) = some ch)
    (henc : (c.encodeAll ch).length ≤ maxDecoderFrameSize) :
    readerImpl.fetchFrame c ((chunks.map c.encodeAll).flatten ++ t) true
      (canonEntryAt c pre ch 0 0 0) = .ok ch := by
  have henCS : (canonEntryAt c pre ch 0 0 0).CompSize =
      (c.encodeAll ch).length := rfl
  have henCO : (canonEntryAt c pre ch 0 0 0).CompOffset =
      ((pre.map c.encodeAll).flatten).length := by
    simp [canonEntryAt]
  have hsrc : envGetFrameByIndex ((chunks.map c.encodeAll).flatten ++ t)
      (canonEntryAt c pre ch 0 0 0) = c.encodeAll ch := by
    unfold envGetFrameByIndex
    rw [henCO, henCS, (flatten_split c chunks pre ch post hsplit).1]
    exact slice_mid _ _ _ _
  unfold readerImpl.fetchFrame
  rw [henCS, hsrc, if_neg (not_lt.mpr henc), if_neg (by simp), hdec]
  show (if true = true then
      (if (canonEntryAt c pre ch 0 0 0).Checksum ≠
          c.xxh64 ch % 4294967296 then Except.error Err.checksumMismatch
        else Except.ok ch)
    else Except.ok ch) = Except.ok ch
  rw [if_pos rfl, if_neg (by simp [canonEntryAt])]

theorem finishRead_spec (cc : Codec) (chunks : List Bytes)
    (pre : List Bytes) (ch : Bytes) (post : List Bytes)
    (r : ReaderState) (dstLen off : Nat)
    (hsplit : chunks = pre ++ ch :: post)
    (hlow : (pre.flatten).length ≤ off)
    (hhigh : off < (pre.flatten).length + ch.length) :
    readerImpl.finishRead ch (canonEntryAt cc pre ch 0 0 0) r dstLen
      (off : Int) =
      .ok ((off : Int) +
          (min (ch.length - (off - (pre.flatten).length)) dstLen : Nat),
        ((chunks.flatten).drop off).take
          (min (ch.length - (off - (pre.flatten).length)) dstLen), r) := by
  have henDS : (canonEntryAt cc pre ch 0 0 0).DecompSize = ch.length := rfl
  have henDO : (canonEntryAt cc pre ch 0 0 0).DecompOffset =
      (pre.flatten).length := by
    simp [canonEntryAt]
  have htn : ((off : Int)).toNat = off := by simp
  have hbytes : ((chunks.flatten).drop off).take
      (min (ch.length - (off - (pre.flatten).length)) dstLen) =
      (ch.drop (off - (pre.flatten).length)).take
        (min (ch.length - (off - (pre.flatten).length)) dstLen) := by
    rw [(flatten_split cc chunks pre ch post hsplit).2]
    rw [drop_mid _ _ _ off hlow (by omega)]
    rw [take_within _ _ _ (by rw [List.length_drop]; omega)]
  unfold readerImpl.finishRead
  rw [htn, henDS, henDO, if_neg (by simp), hbytes]

theorem decomp_unique (ch ch2 : Bytes) :
    ∀ (pre pre2 chunks post post2 : List Bytes),
    chunks = pre ++ ch :: post → chunks = pre2 ++ ch2 :: post2 →
    (∀ x ∈ chunks, x ≠ []) →
    (pre.flatten).length = (pre2.flatten).length → ch = ch2 := by
  intro pre
  induction pre with
  | nil =>
    intro pre2 chunks post post2 h1 h2 hne hoff
    cases pre2 with
    | nil =>
      rw [h1] at h2
      simp at h2
      exact h2.1
    | cons y pre2' =>
      have hyne : y ≠ [] := by
        apply hne
        rw [h2]
        simp
      have hylen : 1 ≤ y.length := by
        cases y with
        | nil => exact absurd rfl hyne
        | cons a as => simp
      simp only [List.flatten_nil, List.length_nil, List.flatten_cons,
        List.length_append] at hoff
      omega
  | cons x pre' ih =>
    intro pre2 chunks post post2 h1 h2 hne hoff
    cases pre2 with
    | nil =>
      have hxne : x ≠ [] := by
        apply hne
        rw [h1]
        simp
      have hxlen : 1 ≤ x.length := by
        cases x with
        | nil => exact absurd rfl hxne
        | cons a as => simp
      simp only [List.flatten_nil, List.length_nil, List.flatten_cons,
        List.length_append] at hoff
      omega
    | cons y pre2' =>
      rw [h1] at h2
      rw [List.cons_append, List.cons_append] at h2
      injection h2 with hxy htl
      refine ih pre2' (pre' ++ ch :: post) post post2 rfl htl ?_ ?_
      · intro z hz
        apply hne
        rw [h1, List.cons_append]
        simp [hz]
      · rw [List.flatten_cons, List.length_append] at hoff
        rw [hxy] at hoff
        rw [List.flatten_cons, List.length_append] at hoff
        omega

theorem read_spec (c : Codec) (chunks : List Bytes) (t : Bytes)
    (r : ReaderState) (dstLen off : Nat)
    (hdec : ∀ ch ∈ chunks, c.decodeAll (c.encodeAll ch) = some ch)
    (henc : ∀ ch ∈ chunks, (c.encodeAll ch).length ≤ maxDecoderFrameSize)
    (hne : ∀ ch ∈ chunks, ch ≠ [])
    (hgr : GoodReader c chunks r)
    (hoff : off < (chunks.flatten).length)
    (hdst : 1 ≤ dstLen) :
    ∃ (size : Nat) (r2 : ReaderState),
      readerImpl.read c ((chunks.map c.encodeAll).flatten ++ t) r dstLen
          (off : Int) =
        .ok ((off : Int) + (size : Nat),
          ((chunks.flatten).drop off).take size, r2) ∧
      1 ≤ size ∧ size ≤ dstLen ∧ off + size ≤ (chunks.flatten).length ∧
      GoodReader c chunks r2 ∧ r2.offset = r.offset ∧
      r2.endOffset = r.endOffset ∧ r2.numFrames = r.numFrames := by
  obtain ⟨hidx, hclosed, hchk, hend, hcache⟩ := hgr
  obtain ⟨pre, ch, post, hsplit, hdesc, hlow0, hhigh0⟩ :=
    resolve_spec c chunks hne 0 0 0 off (Nat.zero_le _) (by omega)
  have hlow : (pre.flatten).length ≤ off := by omega
  have hhigh : off < (pre.flatten).length + ch.length := by omega
  have hchS : (pre.flatten).length + ch.length ≤ (chunks.flatten).length := by
    have h := (flatten_split c chunks pre ch post hsplit).2
    rw [h, List.length_append, List.length_append]
    omega
  have hchmem : ch ∈ chunks := by
    rw [hsplit]
    simp
  have hres : readerImpl.GetIndexByDecompOffset r ((off : Int)).toNat =
      some (canonEntryAt c pre ch 0 0 0) := by
    have htn : ((off : Int)).toNat = off := by simp
    rw [htn]
    unfold readerImpl.GetIndexByDecompOffset
    rw [if_neg (by rw [hend]; omega), hidx]
    exact hdesc
  have hDO : (canonEntryAt c pre ch 0 0 0).DecompOffset =
      (pre.flatten).length := by
    simp [canonEntryAt]
  have hDS : (canonEntryAt c pre ch 0 0 0).DecompSize = ch.length := rfl
  have hboundsF : ¬((off : Int) <
      ((canonEntryAt c pre ch 0 0 0).DecompOffset : Int) ∨
      ((canonEntryAt c pre ch 0 0 0).DecompOffset : Int) +
        ((canonEntryAt c pre ch 0 0 0).DecompSize : Int) < (off : Int)) := by
    rw [hDO, hDS]
    omega
  have hsize1 : 1 ≤ min (ch.length - (off - (pre.flatten).length)) dstLen := by
    omega
  have hsize2 : min (ch.length - (off - (pre.flatten).length)) dstLen ≤
      dstLen := by omega
  have hsize3 : off + min (ch.length - (off - (pre.flatten).length)) dstLen ≤
      (chunks.flatten).length := by omega
  rcases hcache with hnone | ⟨pre2, ch2, post2, hsp2, hco2, hcd2⟩
  · -- empty cache: slow path
    refine ⟨min (ch.length - (off - (pre.flatten).length)) dstLen,
      { r with
          cachedOffset := (canonEntryAt c pre ch 0 0 0).DecompOffset,
          cachedData := some ch }, ?_, hsize1, hsize2, hsize3,
      ⟨hidx, hclosed, hchk, hend,
        Or.inr ⟨pre, ch, post, hsplit, by rw [hDO], rfl⟩⟩, rfl, rfl, rfl⟩
    unfold readerImpl.read
    rw [if_neg (by rw [hclosed]; simp),
      if_neg (by rw [hend]; omega),
      if_neg (by omega)]
    split
    next heq =>
      rw [hres] at heq
      simp at heq
    next index heq =>
      rw [hres] at heq
      injection heq with hin
      subst hin
      rw [if_neg hboundsF]
      have hscrut : (if r.cachedOffset =
          (canonEntryAt c pre ch 0 0 0).DecompOffset then r.cachedData
          else none) = none := by
        rw [hnone]
        simp
      rw [hscrut]
      split
      next d heqc => simp at heqc
      next heqc =>
        rw [hchk, fetchFrame_spec c chunks pre ch post t hsplit
          (hdec ch hchmem) (henc ch hchmem)]
        split
        next e heqf => simp at heqf
        next d heqf =>
          injection heqf with hd
          subst hd
          exact finishRead_spec c chunks pre ch post _ dstLen off hsplit
            hlow hhigh
  · by_cases hoffeq : r.cachedOffset =
      (canonEntryAt c pre ch 0 0 0).DecompOffset
    · -- cache hit: fast path, state unchanged
      have hcheq : ch2 = ch := by
        refine (decomp_unique ch ch2 pre pre2 chunks post post2 hsplit hsp2
          hne ?_).symm
        rw [← hco2, hoffeq, hDO]
      refine ⟨min (ch.length - (off - (pre.flatten).length)) dstLen, r, ?_,
        hsize1, hsize2, hsize3,
        ⟨hidx, hclosed, hchk, hend,
          Or.inr ⟨pre2, ch2, post2, hsp2, hco2, hcd2⟩⟩, rfl, rfl, rfl⟩
      unfold readerImpl.read
      rw [if_neg (by rw [hclosed]; simp),
        if_neg (by rw [hend]; omega),
        if_neg (by omega)]
      split
      next heq =>
        rw [hres] at heq
        simp at heq
      next index heq =>
        rw [hres] at heq
        injection heq with hin
        subst hin
        rw [if_neg hboundsF]
        have hscrut : (if r.cachedOffset =
            (canonEntryAt c pre ch 0 0 0).DecompOffset then r.cachedData
            else none) = some ch := by
          rw [if_pos hoffeq, hcd2, hcheq]
        rw [hscrut]
        split
        next d heqc =>
          injection heqc with hd
          subst hd
          exact finishRead_spec c chunks pre ch post r dstLen off hsplit
            hlow hhigh
        next heqc => simp at heqc
    · -- stale cache: slow path
      refine ⟨min (ch.length - (off - (pre.flatten).length)) dstLen,
        { r with
            cachedOffset := (canonEntryAt c pre ch 0 0 0).DecompOffset,
            cachedData := some ch }, ?_, hsize1, hsize2, hsize3,
        ⟨hidx, hclosed, hchk, hend,
          Or.inr ⟨pre, ch, post, hsplit, by rw [hDO], rfl⟩⟩, rfl, rfl, rfl⟩
      unfold readerImpl.read
      rw [if_neg (by rw [hclosed]; simp),
        if_neg (by rw [hend]; omega),
        if_neg (by omega)]
      split
      next heq =>
        rw [hres] at heq
        simp at heq
      next index heq =>
        rw [hres] at heq
        injection heq with hin
        subst hin
        rw [if_neg hboundsF]
        have hscrut : (if r.cachedOffset =
            (canonEntryAt c pre ch 0 0 0).DecompOffset then r.cachedData
            else none) = none := by
          rw [if_neg hoffeq]
        rw [hscrut]
        split
        next d heqc => simp at heqc
        next heqc =>
          rw [hchk, fetchFrame_spec c chunks pre ch post t hsplit
            (hdec ch hchmem) (henc ch hchmem)]
          split
          next e heqf => simp at heqf
          next d heqf =>
            injection heqf with hd
            subst hd
            exact finishRead_spec c chunks pre ch post _ dstLen off hsplit
              hlow hhigh

theorem readAtAux_spec (c : Codec) (chunks : List Bytes) (t : Bytes)
    (hdec : ∀ ch ∈ chunks, c.decodeAll (c.encodeAll ch) = some ch)
    (henc : ∀ ch ∈ chunks, (c.encodeAll ch).length ≤ maxDecoderFrameSize)
    (hne : ∀ ch ∈ chunks, ch ≠ []) :
    ∀ (fuel : Nat) (r : ReaderState) (dstLen off : Nat),
    GoodReader c chunks r →
    dstLen < fuel →
    off + dstLen ≤ (chunks.flatten).length →
    ∃ r2,
      readerImpl.ReadAtAux c ((chunks.map c.encodeAll).flatten ++ t) fuel r
          dstLen (off : Int) =
        some (r2, ((chunks.flatten).drop off).take dstLen, none) ∧
      GoodReader c chunks r2 ∧ r2.offset = r.offset ∧
      r2.endOffset = r.endOffset := by
  intro fuel
  induction fuel with
  | zero =>
    intro r dstLen off _ hfuel _
    exact absurd hfuel (by omega)
  | succ fuel ih =>
    intro r dstLen off hgr hfuel hbound
    by_cases hdz : dstLen = 0
    · refine ⟨r, ?_, hgr, rfl, rfl⟩
      rw [readerImpl.ReadAtAux, if_pos hdz, hdz]
      simp
    · have hoff : off < (chunks.flatten).length := by omega
      obtain ⟨size, r1, hread, hs1, hs2, hs3, hgr1, hro1, hre1, hrn1⟩ :=
        read_spec c chunks t r dstLen off hdec henc hne hgr hoff (by omega)
      have hblen : (((chunks.flatten).drop off).take size).length = size := by
        rw [List.length_take, List.length_drop]
        omega
      by_cases hfill : dstLen ≤ size
      · have hsz : size = dstLen := by omega
        refine ⟨r1, ?_, hgr1, hro1, hre1⟩
        rw [readerImpl.ReadAtAux, if_neg hdz, hread]
        split
        next e heq => simp at heq
        next a bytes r1' heq =>
          injection heq with h
          injection h with h1 h2
          injection h2 with hb hr
          subst hb
          subst hr
          rw [if_pos (by rw [hblen]; omega)]
          rw [List.take_take, hsz, Nat.min_self]
      · obtain ⟨r2, hrec, hgr2, hro2, hre2⟩ :=
          ih r1 (dstLen - size) (off + size) hgr1 (by omega) (by omega)
        have hslices : ((chunks.flatten).drop off).take size ++
            ((chunks.flatten).drop (off + size)).take (dstLen - size) =
            ((chunks.flatten).drop off).take dstLen := by
          have h1 : (chunks.flatten).drop (off + size) =
              (((chunks.flatten).drop off).drop size) := by
            rw [List.drop_drop]
          rw [h1, ← List.take_add]
          congr 1
          omega
        refine ⟨r2, ?_, hgr2, by rw [hro2, hro1], by rw [hre2, hre1]⟩
        rw [readerImpl.ReadAtAux, if_neg hdz, hread]
        split
        next e heq => simp at heq
        next a bytes r1' heq =>
          injection heq with h
          injection h with h1 h2
          injection h2 with hb hr
          subst hb
          subst hr
          rw [if_neg (by rw [hblen]; omega)]
          rw [hblen]
          have harg : (off : Int) + (size : Int) =
              (((off + size : Nat) : Int)) := by push_cast; ring
          rw [harg, hrec]
          split
          next heq2 => simp at heq2
          next r2' rest err heq2 =>
            injection heq2 with h'
            injection h' with h1' h2'
            injection h2' with hrest herr
            subst h1'
            subst hrest
            subst herr
            rw [hslices]

theorem readFullSeq_spec (c : Codec) (chunks : List Bytes) (t : Bytes)
    (hdec : ∀ ch ∈ chunks, c.decodeAll (c.encodeAll ch) = some ch)
    (henc : ∀ ch ∈ chunks, (c.encodeAll ch).length ≤ maxDecoderFrameSize)
    (hne : ∀ ch ∈ chunks, ch ≠ []) :
    ∀ (fuel : Nat) (r : ReaderState) (n off : Nat),
    GoodReader c chunks r →
    r.offset = (off : Int) →
    n < fuel →
    off + n ≤ (chunks.flatten).length →
    ∃ r2,
      readFullSeq c ((chunks.map c.encodeAll).flatten ++ t) fuel r n =
        some (r2, ((chunks.flatten).drop off).take n, none) ∧
      GoodReader c chunks r2 := by
  intro fuel
  induction fuel with
  | zero =>
    intro r n off _ _ hfuel _
    exact absurd hfuel (by omega)
  | succ fuel ih =>
    intro r n off hgr hroff hfuel hbound
    by_cases hdz : n = 0
    · refine ⟨r, ?_, hgr⟩
      rw [readFullSeq, if_pos hdz, hdz]
      simp
    · have hoff : off < (chunks.flatten).length := by omega
      obtain ⟨size, r1, hread, hs1, hs2, hs3, hgr1, hro1, hre1, hrn1⟩ :=
        read_spec c chunks t r n off hdec henc hne hgr hoff (by omega)
      have hblen : (((chunks.flatten).drop off).take size).length = size := by
        rw [List.length_take, List.length_drop]
        omega
      have hRead : readerImpl.Read c ((chunks.map c.encodeAll).flatten ++ t)
          r n =
          ({ r1 with offset := (off : Int) + (size : Nat) },
            ((chunks.flatten).drop off).take size, none) := by
        unfold readerImpl.Read
        rw [hroff, hread]
      by_cases hfill : n ≤ size
      · have hsz : size = n := by omega
        refine ⟨{ r1 with offset := (off : Int) + (size : Nat) }, ?_, hgr1⟩
        rw [readFullSeq, if_neg hdz, hRead]
        split
        next r1' bytes e heq =>
          injection heq with h hsnd
          injection hsnd with hb herr
          simp at herr
        next r1' bytes heq =>
          injection heq with h hsnd
          injection hsnd with hb herr
          subst h
          subst hb
          rw [if_pos (by rw [hblen]; omega)]
          rw [List.take_take, hsz, Nat.min_self]
      · have hro1' : ({ r1 with offset := (off : Int) + (size : Nat) } :
            ReaderState).offset = ((off + size : Nat) : Int) := by
          show (off : Int) + (size : Nat) = ((off + size : Nat) : Int)
          push_cast
          ring
        obtain ⟨r2, hrec, hgr2⟩ :=
          ih { r1 with offset := (off : Int) + (size : Nat) } (n - size)
            (off + size) hgr1 hro1' (by omega) (by omega)
        have hslices : ((chunks.flatten).drop off).take size ++
            ((chunks.flatten).drop (off + size)).take (n - size) =
            ((chunks.flatten).drop off).take n := by
          have h1 : (chunks.flatten).drop (off + size) =
              (((chunks.flatten).drop off).drop size) := by
            rw [List.drop_drop]
          rw [h1, ← List.take_add]
          congr 1
          omega
        refine ⟨r2, ?_, hgr2⟩
        rw [readFullSeq, if_neg hdz, hRead]
        split
        next r1' bytes e heq =>
          injection heq with h hsnd
          injection hsnd with hb herr
          simp at herr
        next r1' bytes heq =>
          injection heq with h hsnd
          injection hsnd with hb herr
          subst h
          subst hb
          rw [if_neg (by rw [hblen]; omega)]
          rw [hblen, hrec]
          split
          next heq2 => simp at heq2
          next r2' rest err heq2 =>
            injection heq2 with h'
            injection h' with h1' h2'
            injection h2' with hrest herr2
            subst h1'
            subst hrest
            subst herr2
            rw [hslices]

/-- C1: random-access equivalence. For every byte string `S = chunks.flatten`
written through the writer as a sequence of frames and then opened by the
reader, and every pair of offsets `a ≤ b ≤ |S|`, the positional read
`ReadAt(dst of length b−a, a)` returns exactly `S[a..b]`, and the same bytes
are returned by `Seek(a, Start)` followed by sequential `Read` of `b−a`
bytes. (Hypotheses: the codec round-trips each written chunk, chunks are
non-empty and of representable size, and frames fit the decoder limit.) -/
theorem C1_random_access (c : Codec) (chunks : List Bytes) (a b : Nat)
    (hdec : ∀ ch ∈ chunks, c.decodeAll (c.encodeAll ch) = some ch)
    (hne : ∀ ch ∈ chunks, ch ≠ [])
    (hlen : ∀ ch ∈ chunks, ch.length ≤ maxUint32)
    (henc : ∀ ch ∈ chunks, (c.encodeAll ch).length ≤ maxDecoderFrameSize)
    (hN : 12 * chunks.length + 17 ≤ maxDecoderFrameSize)
    (hab : a ≤ b) (hb : b ≤ (chunks.flatten).length) :
    pipeReadAt c chunks a (b - a) =
      some (((chunks.flatten).drop a).take (b - a)) ∧
    pipeSeqRead c chunks a (b - a) =
      some (((chunks.flatten).drop a).take (b - a)) := by
  obtain ⟨r0, hnr, hgr0, hoff0⟩ := newReader_spec c chunks hne hlen henc hN
  constructor
  · obtain ⟨r2, hA, _, _, _⟩ := readAtAux_spec c chunks
      (skipFrameBytes (chunks.map (mkEntry c))) hdec henc hne
      ((b - a) + 1) r0 (b - a) a hgr0 (by omega) (by omega)
    unfold pipeReadAt
    split
    next heq =>
      rw [writerFile_spec c chunks hne hlen henc hN] at heq
      simp at heq
    next file heq =>
      rw [writerFile_spec c chunks hne hlen henc hN] at heq
      injection heq with hf
      subst hf
      split
      next e heq2 =>
        rw [hnr] at heq2
        simp at heq2
      next r0' heq2 =>
        rw [hnr] at heq2
        injection heq2 with h0
        subst h0
        have hAt : readerImpl.ReadAt c ((chunks.map c.encodeAll).flatten ++
            skipFrameBytes (chunks.map (mkEntry c))) r0 (b - a) (a : Int) =
            some (r2, ((chunks.flatten).drop a).take (b - a), none) := hA
        rw [hAt]
  · obtain ⟨r2, hrec, hgr2⟩ := readFullSeq_spec c chunks
      (skipFrameBytes (chunks.map (mkEntry c))) hdec henc hne
      ((b - a) + 1) { r0 with offset := (a : Int) } (b - a) a hgr0 rfl
      (by omega) (by omega)
    have hseek : readerImpl.Seek r0 (a : Int) 0 =
        ((a : Int), { r0 with offset := (a : Int) }, none) := by
      show (if (a : Int) < 0 then ((0 : Int), r0, some Err.negativeOffset)
            else ((a : Int), { r0 with offset := (a : Int) }, none)) = _
      rw [if_neg (by omega)]
    unfold pipeSeqRead
    split
    next heq =>
      rw [writerFile_spec c chunks hne hlen henc hN] at heq
      simp at heq
    next file heq =>
      rw [writerFile_spec c chunks hne hlen henc hN] at heq
      injection heq with hf
      subst hf
      split
      next e heq2 =>
        rw [hnr] at heq2
        simp at heq2
      next r0' heq2 =>
        rw [hnr] at heq2
        injection heq2 with h0
        subst h0
        rw [hseek]
        split
        next x y e heq3 =>
          injection heq3 with h1 hsnd
          injection hsnd with h2 herr
          simp at herr
        next x r1 heq3 =>
          injection heq3 with h1 hsnd
          injection hsnd with h2 herr
          subst h2
          rw [hrec]

theorem C1_random_access_witness :
    pipeReadAt ⟨fun x => x, fun x => some x, fun _ => 0⟩ [[1, 2], [3]] 1
        (3 - 1) =
      some (((([[1, 2], [3]] : List Bytes).flatten).drop 1).take (3 - 1)) ∧
    pipeSeqRead ⟨fun x => x, fun x => some x, fun _ => 0⟩ [[1, 2], [3]] 1
        (3 - 1) =
      some (((([[1, 2], [3]] : List Bytes).flatten).drop 1).take (3 - 1)) :=
  C1_random_access ⟨fun x => x, fun x => some x, fun _ => 0⟩ [[1, 2], [3]]
    1 3 (fun _ _ => rfl) (by decide) (by decide) (by decide) (by decide)
    (by decide) (by decide)

theorem wmstep_inv (c : Codec) (frames : List Bytes) (conc : Nat)
    (s : WMState)
    (h : Relation.ReflTransGen (WMStep c frames conc) WMState.start s) :
    s.consumed ≤ s.produced ∧ s.produced ≤ frames.length ∧
    s.out = ((frames.take s.consumed).map c.encodeAll).flatten ∧
    s.entries = (frames.take s.consumed).map (mkEntry c) := by
  induction h with
  | refl => exact ⟨Nat.le_refl 0, Nat.zero_le _, rfl, rfl⟩
  | tail hpath hstep ih =>
    obtain ⟨h1, h2, h3, h4⟩ := ih
    rename_i b sEnd
    cases hstep with
    | produce hlt hq =>
      refine ⟨?_, ?_, h3, h4⟩
      · show b.consumed ≤ b.produced + 1
        omega
      · show b.produced + 1 ≤ frames.length
        omega
    | fill i hi => exact ⟨h1, h2, h3, h4⟩
    | consume dst entry hlt hmem henc =>
      have hcl : b.consumed < frames.length := by omega
      unfold writerImpl.encodeOne at henc
      split at henc
      · exact absurd henc (by simp)
      · split at henc
        · exact absurd henc (by simp)
        · injection henc with hp
          injection hp with hdst hent
          subst hdst
          subst hent
          have hf : frames.take (b.consumed + 1) =
              frames.take b.consumed ++ [frames.getD b.consumed []] := by
            rw [List.take_succ, List.getElem?_eq_getElem hcl,
              List.getD_eq_getElem frames [] hcl]
            rfl
          refine ⟨?_, ?_, ?_, ?_⟩
          · show b.consumed + 1 ≤ b.produced
            omega
          · show b.produced ≤ frames.length
            omega
          · show b.out ++ _ =
              ((frames.take (b.consumed + 1)).map c.encodeAll).flatten
            rw [h3, hf]
            simp
          · show b.entries ++ _ =
              (frames.take (b.consumed + 1)).map (mkEntry c)
            rw [h4, hf]
            simp

/-- C6: concurrent-writer equivalence. For every frame source (a finite list
of frames) and every concurrency level ≥ 1, any complete run of the
`WriteMany` pipeline — producer, concurrent compression tasks fulfilling
promises in arbitrary order, and the single ordered consumer — writes the
compressed frames in exactly frame-source order: the emitted byte stream
and the recorded descriptor list are identical to what the serial writer
produces for the same frames with the same encoder. -/
theorem C6_write_many_serial_equiv (c : Codec) (frames : List Bytes)
    (conc : Nat) (_hconc : 1 ≤ conc)
    (hne : ∀ f ∈ frames, f ≠ [])
    (hflen : ∀ f ∈ frames, f.length ≤ maxUint32)
    (henc : ∀ f ∈ frames, (c.encodeAll f).length ≤ maxUint32)
    (s : WMState)
    (hrun : Relation.ReflTransGen (WMStep c frames conc) WMState.start s)
    (hdone : s.consumed = frames.length) :
    ∃ sw, writeAll c WriterState.initial frames = (sw, none) ∧
      s.out = sw.out ∧ s.entries = sw.frameEntries := by
  obtain ⟨h1, h2, h3, h4⟩ := wmstep_inv c frames conc s hrun
  refine ⟨_, writeAll_spec c frames hne hflen henc WriterState.initial,
    ?_, ?_⟩
  · show s.out = [] ++ (frames.map c.encodeAll).flatten
    rw [h3, hdone, List.take_length]
    simp
  · show s.entries = [] ++ frames.map (mkEntry c)
    rw [h4, hdone, List.take_length]
    simp

theorem C6_write_many_serial_equiv_witness :
    ∃ sw,
      writeAll idCodec WriterState.initial [[1]] = (sw, none) ∧
      (⟨1, [0], 1, [1], [mkEntry idCodec [1]]⟩ : WMState).out = sw.out ∧
      (⟨1, [0], 1, [1], [mkEntry idCodec [1]]⟩ : WMState).entries =
        sw.frameEntries :=
  C6_write_many_serial_equiv idCodec [[1]] 1 (by decide) (by decide)
    (by decide) (by decide)
    ⟨1, [0], 1, [1], [mkEntry idCodec [1]]⟩
    (Relation.ReflTransGen.tail
      (Relation.ReflTransGen.tail
        (Relation.ReflTransGen.tail Relation.ReflTransGen.refl
          (WMStep.produce WMState.start (by decide) (by decide)))
        (WMStep.fill ⟨1, [], 0, [], []⟩ 0 (by decide)))
      (WMStep.consume ⟨1, [0], 0, [], []⟩ [1] (mkEntry idCodec [1])
        (by decide) (by decide) rfl))
    rfl

end ZstdSeekable

